import Mathlib

/-!
BlokusDuoGS: the Blokus Duo adapter of the AlphaZero game-state contract,
and the search tree its test exercises.

A shallow embedding of `src/blokusduo_gs.h` and `src/blokusduo_gs.cc`.

* `blokusduo.h` (the `Board` and `Move` classes) is not part of the sources, so
  the board is taken as a parameter: `BoardAPI` lists the members of `Board` the
  adapter calls, with no assumption about what they compute.
* The two file-level globals `all_possible_moves` and `move_to_index` are the
  record `Tables`; every operation that touches them takes the record and
  returns the updated one.
* `std::unordered_map::operator[]` inserts a value-initialised entry (index 0)
  for an absent key; `umap_index` does the same.
* Unchecked indexing beyond the end of a vector (undefined behaviour in the
  source) is the failure value of the operation (`none`, or `out_of_range`).
* `assert` is modelled as enabled: a failed assertion is a failure value.
* Table sizes and indices are natural numbers; the `int` / `uint32_t`
  conversions of the source are exact for every table that fits in memory.
-/

namespace alphazero.blokusduo_gs

/-! ## The board interface (members of `blokusduo::mini::Board` used by the adapter) -/

/-- The members of `Board`, `Move` and the board key that `blokusduo_gs.cc` calls.
`at_` is `Board::at(x, y)`; `string_view` is the `string_view()` of the value
returned by `Board::key()`; equality of keys is equality in `Key`. -/
structure BoardAPI (Board Move Key : Type) where
  XSIZE : Nat
  YSIZE : Nat
  VIOLET_TILE : Nat
  ORANGE_TILE : Nat
  all_possible_moves : List Move
  rotate_move : Move → Nat → Move
  valid_moves : Board → List Move
  is_valid_move : Board → Move → Bool
  play_move : Board → Move → Board
  is_game_over : Board → Bool
  score : Board → Nat → Int
  is_violet_turn : Board → Bool
  at_ : Board → Nat → Nat → Nat
  key : Board → Key
  string_view : Key → String
  player : Board → Nat
  turn : Board → Nat

/-- The class `BlokusDuoGS`: its only data member is `board_`. -/
structure BlokusDuoGS (Board : Type) where
  board_ : Board

/-! ## `std::unordered_map<Move, int>` as an association list with unique keys -/

/-- The value stored under `key`, if any (`unordered_map::find`). -/
def umap_find {K : Type} [DecidableEq K] : List (K × Nat) → K → Option Nat
  | [], _ => none
  | (k, v) :: rest, key => if k = key then some v else umap_find rest key

/-- The statement `mp[key] = v`: overwrite the entry of `key`, or insert it. -/
def umap_assign {K : Type} [DecidableEq K] : List (K × Nat) → K → Nat → List (K × Nat)
  | [], key, v => [(key, v)]
  | (k, w) :: rest, key, v =>
    if k = key then (k, v) :: rest else (k, w) :: umap_assign rest key v

/-- The expression `mp[key]` read as a value: the stored index, or, for an
absent key, a freshly inserted entry with the value-initialised index `0`. -/
def umap_index {K : Type} [DecidableEq K] (mp : List (K × Nat)) (key : K) :
    Nat × List (K × Nat) :=
  match umap_find mp key with
  | some v => (v, mp)
  | none => (0, umap_assign mp key 0)

/-! ## The file-level tables -/

/-- The globals `all_possible_moves` and `move_to_index` of `blokusduo_gs.cc`. -/
structure Tables (Move : Type) where
  all_possible_moves : List Move
  move_to_index : List (Move × Nat)

/-- Both globals are empty when the process starts. -/
def Tables.initial {Move : Type} : Tables Move := ⟨[], []⟩

section Adapter

variable {Board Move Key : Type} [DecidableEq Move]

/-- The function `compute_possible_moves`: copy the board's enumeration and run
`for (i = 0; i < size; ++i) move_to_index[all_possible_moves[i]] = i`. -/
def compute_possible_moves (B : BoardAPI Board Move Key) (t : Tables Move) : Tables Move :=
  let all := B.all_possible_moves
  { all_possible_moves := all
    move_to_index :=
      (List.range all.length).foldl
        (fun mp i =>
          match all[i]? with
          | some m => umap_assign mp m i
          | none => mp)
        t.move_to_index }

/-- The static `BlokusDuoGS::num_possible_moves`: build the tables when the
enumeration is empty, then return its size. -/
def num_possible_moves (B : BoardAPI Board Move Key) (t : Tables Move) : Nat × Tables Move :=
  let t1 := if t.all_possible_moves.isEmpty then compute_possible_moves B t else t
  (t1.all_possible_moves.length, t1)

/-- The method `BlokusDuoGS::num_moves`. -/
def BlokusDuoGS.num_moves (B : BoardAPI Board Move Key) (t : Tables Move)
    (_s : BlokusDuoGS Board) : Nat × Tables Move :=
  num_possible_moves B t

/-- The method `BlokusDuoGS::num_players`. -/
def BlokusDuoGS.num_players (_s : BlokusDuoGS Board) : Nat := 2

/-- The method `BlokusDuoGS::num_symmetries` (the constant `NUM_SYMMETRIES`). -/
def BlokusDuoGS.num_symmetries (_s : BlokusDuoGS Board) : Nat := 8

/-- The loop `for (auto m : board_.valid_moves()) valids(move_to_index[m]) = 1`.
A write beyond the end of `valids` is the failure `none`. -/
def valid_moves_loop : List Move → List Nat → List (Move × Nat) →
    Option (List Nat × List (Move × Nat))
  | [], valids, mp => some (valids, mp)
  | m :: ms, valids, mp =>
    let r := umap_index mp m
    if r.1 < valids.length then valid_moves_loop ms (valids.set r.1 1) r.2 else none

/-- The method `BlokusDuoGS::valid_moves`: a zeroed vector of `num_moves()`
entries in which the entry of every move reported by the board is set to 1. -/
def BlokusDuoGS.valid_moves (B : BoardAPI Board Move Key) (t : Tables Move)
    (s : BlokusDuoGS Board) : Option (List Nat × Tables Move) :=
  let r := BlokusDuoGS.num_moves B t s
  let valids := List.replicate r.1 0
  match valid_moves_loop (B.valid_moves s.board_) valids r.2.move_to_index with
  | some (v, mp) => some (v, { all_possible_moves := r.2.all_possible_moves, move_to_index := mp })
  | none => none

/-- The two ways `play_move` can stop without playing: the unchecked read
`all_possible_moves[move]` beyond the end of the vector, and the failed
`assert(board_.is_valid_move(m))`. -/
inductive PlayError where
  | out_of_range
  | invalid_move
  deriving DecidableEq, Repr

/-- The method `BlokusDuoGS::play_move`. It reads the global enumeration as it
is (it does not build it) and does not touch `move_to_index`. -/
def BlokusDuoGS.play_move (B : BoardAPI Board Move Key) (t : Tables Move)
    (s : BlokusDuoGS Board) (move : Nat) : Except PlayError (BlokusDuoGS Board) :=
  match t.all_possible_moves[move]? with
  | none => .error .out_of_range
  | some m =>
    if B.is_valid_move s.board_ m then .ok { board_ := B.play_move s.board_ m }
    else .error .invalid_move

/-- The method `BlokusDuoGS::scores`. The three floats are only ever `0.0f` and
`1.0f`, written here as the integers 0 and 1. Board scores are tile counts, far
inside the range of `int`, so the subtraction is exact. -/
def BlokusDuoGS.scores (B : BoardAPI Board Move Key) (s : BlokusDuoGS Board) :
    Option (List Int) :=
  if !B.is_game_over s.board_ then none
  else
    let scores : List Int := List.replicate 3 0
    let v : Int := B.score s.board_ 0 - B.score s.board_ 1
    if v > 0 then some (scores.set 0 1)
    else if v < 0 then some (scores.set 1 1)
    else some (scores.set 2 1)

/-! ## Tensors, the canonical encoding and the training record -/

/-- A rank-3 Eigen tensor: its three dimensions and its entries by index. Only
the entries with indices inside the dimensions are meaningful. -/
structure Tensor3 (α : Type) where
  d0 : Nat
  d1 : Nat
  d2 : Nat
  data : Nat → Nat → Nat → α

/-- The assignment `out(c, y, x) = v`. -/
def Tensor3.write {α : Type} (t : Tensor3 α) (c y x : Nat) (v : α) : Tensor3 α :=
  { t with data := fun c1 y1 x1 => if c1 = c ∧ y1 = y ∧ x1 = x then v else t.data c1 y1 x1 }

/-- The Eigen operation `shuffle(shuffle_dims)` with `shuffle_dims = {0, 2, 1}`:
the last two axes are exchanged. -/
def Tensor3.shuffle {α : Type} (t : Tensor3 α) : Tensor3 α :=
  { d0 := t.d0, d1 := t.d2, d2 := t.d1, data := fun c a b => t.data c b a }

/-- The Eigen operation `reverse(reverse_dims)` with
`reverse_dims = {false, false, true}`: the last axis is reversed. -/
def Tensor3.reverse {α : Type} (t : Tensor3 α) : Tensor3 α :=
  { t with data := fun c a b => t.data c a (t.d2 - 1 - b) }

/-- The method `BlokusDuoGS::canonicalized`. `CanonicalTensor{}` starts with
indeterminate entries (`none`); a written entry is `some 0` or `some 1`, the
floats `0.0f` and `1.0f`. -/
def BlokusDuoGS.canonicalized (B : BoardAPI Board Move Key) (s : BlokusDuoGS Board) :
    Tensor3 (Option Int) :=
  let out : Tensor3 (Option Int) :=
    { d0 := 2, d1 := B.YSIZE, d2 := B.XSIZE, data := fun _ _ _ => none }
  (List.range 2).foldl
    (fun out p =>
      let ch := if B.is_violet_turn s.board_ then p else 1 - p
      let block := if p = 0 then B.VIOLET_TILE else B.ORANGE_TILE
      (List.range B.YSIZE).foldl
        (fun out y =>
          (List.range B.XSIZE).foldl
            (fun out x =>
              out.write ch y x (some (if B.at_ s.board_ x y &&& block ≠ 0 then 1 else 0)))
            out)
        out)
    out

/-- The struct `PlayHistory` of the game-state contract: canonical encoding,
outcome label and policy vector. -/
structure PlayHistory (α V : Type) where
  canonical : Tensor3 α
  v : V
  pi : List α

/-- The statement `syms[dst].canonical = f(syms[src].canonical)`. -/
def assign_canonical {α V : Type} (syms : List (PlayHistory α V)) (dst src : Nat)
    (f : Tensor3 α → Tensor3 α) : List (PlayHistory α V) :=
  match syms[dst]?, syms[src]? with
  | some d, some s => syms.set dst { d with canonical := f s.canonical }
  | _, _ => syms

/-- The inner loop of `symmetries` for one `r`:
`for i: m = rotate_move(all_possible_moves[i], r); pi(move_to_index[m]) = base.pi(i)`.
A read or write beyond the end of a vector is the failure `none`. -/
def symmetries_pi_loop {α : Type} (B : BoardAPI Board Move Key) (r : Nat) (base_pi : List α)
    (all : List Move) : List Nat → List α → List (Move × Nat) →
    Option (List α × List (Move × Nat))
  | [], pi, mp => some (pi, mp)
  | i :: rest, pi, mp =>
    match all[i]?, base_pi[i]? with
    | some mv, some x =>
      let k := umap_index mp (B.rotate_move mv r)
      if k.1 < pi.length then symmetries_pi_loop B r base_pi all rest (pi.set k.1 x) k.2
      else none
    | _, _ => none

/-- The outer loop of `symmetries` over `r`: copy `base.v`, allocate a policy
vector of `n` indeterminate entries (`fresh`) and fill it by the inner loop. -/
def symmetries_loop {α V : Type} (B : BoardAPI Board Move Key) (fresh : α)
    (base : PlayHistory α V) (all : List Move) (n : Nat) :
    List Nat → List (PlayHistory α V) → List (Move × Nat) →
    Option (List (PlayHistory α V) × List (Move × Nat))
  | [], syms, mp => some (syms, mp)
  | r :: rest, syms, mp =>
    match syms[r]? with
    | none => none
    | some h =>
      match symmetries_pi_loop B r base.pi all (List.range n) (List.replicate n fresh) mp with
      | none => none
      | some (pi, mp1) =>
        symmetries_loop B fresh base all n rest
          (syms.set r { h with v := base.v, pi := pi }) mp1

/-- The method `BlokusDuoGS::symmetries`. `dflt` is the value-initialised
`PlayHistory` the vector `syms(8)` is filled with, `fresh` the indeterminate
content of a newly allocated policy vector. A failed `assert(n == base.pi.size())`
is the failure `none`. -/
def BlokusDuoGS.symmetries {α V : Type} (B : BoardAPI Board Move Key) (t : Tables Move)
    (dflt : PlayHistory α V) (fresh : α) (s : BlokusDuoGS Board) (base : PlayHistory α V) :
    Option (List (PlayHistory α V) × Tables Move) :=
  let syms := (List.replicate 8 dflt).set 0 base
  let syms := assign_canonical syms 3 0 Tensor3.shuffle
  let syms := assign_canonical syms 2 3 Tensor3.reverse
  let syms := assign_canonical syms 5 2 Tensor3.shuffle
  let syms := assign_canonical syms 4 5 Tensor3.reverse
  let syms := assign_canonical syms 7 4 Tensor3.shuffle
  let syms := assign_canonical syms 6 7 Tensor3.reverse
  let syms := assign_canonical syms 1 6 Tensor3.shuffle
  let r := BlokusDuoGS.num_moves B t s
  let n := r.1
  if n ≠ base.pi.length then none
  else
    match symmetries_loop B fresh base r.2.all_possible_moves n [1, 2, 3, 4, 5, 6, 7] syms
        r.2.move_to_index with
    | some (out, mp) =>
      some (out, { all_possible_moves := r.2.all_possible_moves, move_to_index := mp })
    | none => none

/-! ## Equality and hash -/

/-- The abstract base class `GameState`, as far as `operator==` sees it: an
object is a `BlokusDuoGS` or an object of some other concrete class. -/
inductive GameState (Board Other : Type) where
  | blokusduo : BlokusDuoGS Board → GameState Board Other
  | other : Other → GameState Board Other

/-- The method `BlokusDuoGS::operator==`: a failed `dynamic_cast` gives false,
otherwise the two board keys are compared. -/
def BlokusDuoGS.operator_eq {Other : Type} [DecidableEq Key] (B : BoardAPI Board Move Key)
    (s : BlokusDuoGS Board) (other : GameState Board Other) : Bool :=
  match other with
  | .other _ => false
  | .blokusduo o => decide (B.key s.board_ = B.key o.board_)

/-- The method `BlokusDuoGS::hash`: the hasher state `h` is combined with the
string view of the board key; `combine` is `absl::HashState::combine`. -/
def BlokusDuoGS.hash {H : Type} (combine : H → String → H) (B : BoardAPI Board Move Key)
    (s : BlokusDuoGS Board) (h : H) : H :=
  combine h (B.string_view (B.key s.board_))

/-! ## The table states a process can reach -/

/-- The states of the two globals a process can be in: empty at start, then
changed only by the operations that touch them (`play_move`, `scores`,
`canonicalized`, `operator==` and `hash` leave them alone). -/
inductive Reachable (B : BoardAPI Board Move Key) : Tables Move → Prop where
  | initial : Reachable B Tables.initial
  | num_moves {t : Tables Move} : Reachable B t → Reachable B (num_possible_moves B t).2
  | valid_moves {t t1 : Tables Move} {s : BlokusDuoGS Board} {v : List Nat} :
      Reachable B t → BlokusDuoGS.valid_moves B t s = some (v, t1) → Reachable B t1
  | symmetries {α V : Type} {t t1 : Tables Move} {dflt : PlayHistory α V} {fresh : α}
      {s : BlokusDuoGS Board} {base : PlayHistory α V} {out : List (PlayHistory α V)} :
      Reachable B t → BlokusDuoGS.symmetries B t dflt fresh s base = some (out, t1) →
      Reachable B t1

/-- The index the freshly built `move_to_index` gives for a move through
`operator[]`: the stored index, or 0 for a move that is not a key. -/
def index_of (B : BoardAPI Board Move Key) (m : Move) : Nat :=
  (umap_find (compute_possible_moves B Tables.initial).move_to_index m).getD 0

/-! ## Definitions used to state and prove the facts below -/

/-- The loop of `compute_possible_moves` run for the first `k` indices. -/
def build_map (all : List Move) (k : Nat) (mp : List (Move × Nat)) : List (Move × Nat) :=
  (List.range k).foldl
    (fun mp i =>
      match all[i]? with
      | some m => umap_assign mp m i
      | none => mp)
    mp

/-- A map that answers every `operator[]` read like the freshly built one. -/
def ObsEq (B : BoardAPI Board Move Key) (mp : List (Move × Nat)) : Prop :=
  ∀ m, (umap_find mp m).getD 0 = index_of B m

/-- The invariant of the globals: still untouched, or holding the board's
non-empty enumeration and a map that reads like the freshly built one. -/
def TablesInv (B : BoardAPI Board Move Key) (t : Tables Move) : Prop :=
  (t.all_possible_moves = [] ∧ t.move_to_index = []) ∨
  (t.all_possible_moves = B.all_possible_moves ∧ B.all_possible_moves ≠ [] ∧
    ObsEq B t.move_to_index)

/-- The fold the inner loop of `symmetries` computes once every index is known
to be in range. -/
def pi_fold {α : Type} (B : BoardAPI Board Move Key) (r : Nat) (base_pi : List α)
    (idxs : List Nat) (pi : List α) : List α :=
  idxs.foldl
    (fun p i =>
      match B.all_possible_moves[i]?, base_pi[i]? with
      | some mv, some x => p.set (index_of B (B.rotate_move mv r)) x
      | _, _ => p)
    pi

/-- The policy vector `symmetries` builds for transform `r`: the writes of the
inner loop, in order, on a fresh vector of table size. -/
def relabel {α : Type} (B : BoardAPI Board Move Key) (fresh : α) (base_pi : List α)
    (r : Nat) : List α :=
  pi_fold B r base_pi (List.range B.all_possible_moves.length)
    (List.replicate B.all_possible_moves.length fresh)

/-- The outer loop of `symmetries` once the inner loop is known to succeed. -/
def syms_fold {α V : Type} (B : BoardAPI Board Move Key) (fresh : α) (base : PlayHistory α V)
    (rs : List Nat) (syms : List (PlayHistory α V)) : List (PlayHistory α V) :=
  rs.foldl
    (fun sy r =>
      match sy[r]? with
      | some h => sy.set r { h with v := base.v, pi := relabel B fresh base.pi r }
      | none => sy)
    syms

/-- The canonical tensor of the record number `r` of `symmetries`, as the chain
of `shuffle` and `reverse` assignments produces it. -/
def canon_sym {α : Type} (c : Tensor3 α) : Nat → Tensor3 α
  | 0 => c
  | 3 => c.shuffle
  | 2 => c.shuffle.reverse
  | 5 => c.shuffle.reverse.shuffle
  | 4 => c.shuffle.reverse.shuffle.reverse
  | 7 => c.shuffle.reverse.shuffle.reverse.shuffle
  | 6 => c.shuffle.reverse.shuffle.reverse.shuffle.reverse
  | 1 => c.shuffle.reverse.shuffle.reverse.shuffle.reverse.shuffle
  | _ => c

/-- The record number `r` (from 1 to 7) of the result of `symmetries`. -/
def sym_record {α V : Type} (B : BoardAPI Board Move Key) (fresh : α) (base : PlayHistory α V)
    (r : Nat) : PlayHistory α V :=
  { canonical := canon_sym base.canonical r, v := base.v, pi := relabel B fresh base.pi r }

end Adapter

/-! ## A small concrete board

A 2×2 placement game that implements the board interface. It is used to
evaluate the definitions above on concrete inputs. -/

/-- Four cells in row-major order (cell `2 * y + x`); a cell is 0 (empty),
`VIOLET_TILE = 1` or `ORANGE_TILE = 2`. A move is the number of a cell. -/
structure ToyBoard where
  cells : List Nat
  violet_turn : Bool
  deriving DecidableEq, Repr

/-- The eight symmetries of the 2×2 square acting on cell numbers. -/
def toy_rotate (m r : Nat) : Nat :=
  let a := m / 2
  let b := m % 2
  match r with
  | 1 => 2 * a + (1 - b)
  | 2 => 2 * b + (1 - a)
  | 3 => 2 * b + a
  | 4 => 2 * (1 - a) + (1 - b)
  | 5 => 2 * (1 - a) + b
  | 6 => 2 * (1 - b) + a
  | 7 => 2 * (1 - b) + (1 - a)
  | _ => m

/-- The toy board as an instance of the board interface. -/
def toyAPI : BoardAPI ToyBoard Nat (List Nat × Bool) where
  XSIZE := 2
  YSIZE := 2
  VIOLET_TILE := 1
  ORANGE_TILE := 2
  all_possible_moves := [0, 1, 2, 3]
  rotate_move := toy_rotate
  valid_moves := fun b => [0, 1, 2, 3].filter (fun m => b.cells.getD m 0 == 0)
  is_valid_move := fun b m => decide (m < 4) && b.cells.getD m 0 == 0
  play_move := fun b m =>
    { cells := b.cells.set m (if b.violet_turn then 1 else 2), violet_turn := !b.violet_turn }
  is_game_over := fun b => b.cells.all (fun c => c != 0)
  score := fun b p => ((b.cells.filter (fun c => c == p + 1)).length : Int)
  is_violet_turn := fun b => b.violet_turn
  at_ := fun b x y => b.cells.getD (2 * y + x) 0
  key := fun b => (b.cells, b.violet_turn)
  string_view := fun k => String.mk (k.1.map Nat.digitChar) ++ (if k.2 then "v" else "o")
  player := fun b => if b.violet_turn then 0 else 1
  turn := fun b => (b.cells.filter (fun c => c != 0)).length

/-- The empty toy board, violet to move. -/
def toyStart : BlokusDuoGS ToyBoard := { board_ := { cells := [0, 0, 0, 0], violet_turn := true } }

/-- A toy position with two tiles placed, violet to move. -/
def toyMid : BlokusDuoGS ToyBoard := { board_ := { cells := [1, 0, 2, 0], violet_turn := true } }

/-- A finished toy game: violet holds three cells, orange one. -/
def toyEnd : BlokusDuoGS ToyBoard := { board_ := { cells := [1, 2, 1, 1], violet_turn := false } }

/-- A training record for the toy board: entry `(c, y, x)` of the tensor is
`4 * c + 2 * y + x`, the outcome is 7 and the policy is `[10, 11, 12, 13]`. -/
def toyRecord : PlayHistory Int Int :=
  { canonical := ⟨2, 2, 2, fun c y x => 4 * (c : Int) + 2 * (y : Int) + (x : Int)⟩
    v := 7
    pi := [10, 11, 12, 13] }

/-- A value-initialised record: empty tensor, zero outcome, empty policy. -/
def toyDefault : PlayHistory Int Int :=
  { canonical := ⟨0, 0, 0, fun _ _ _ => 0⟩, v := 0, pi := [] }

/-- The index that the inner loop of `symmetries` writes for table index `i`
and transform `r`: `move_to_index[rotate_move(all_possible_moves[i], r)]`. -/
def target {Board Move Key : Type} [DecidableEq Move] (B : BoardAPI Board Move Key)
    (r i : Nat) : Nat :=
  match B.all_possible_moves[i]? with
  | some mv => index_of B (B.rotate_move mv r)
  | none => 0

/-- The number of the transform that undoes transform `r` on the tensors: the
two quarter turns 2 and 6 undo each other, every other transform undoes itself. -/
def inverse_sym : Nat → Nat
  | 2 => 6
  | 6 => 2
  | r => r

/-- The eight index maps of a square of side `N` in the order in which the
records of `symmetries` are numbered: entry `(a, b)` of record `r` is read from
entry `dihedral_index N r a b` of the base tensor. -/
def dihedral_index (N r a b : Nat) : Nat × Nat :=
  match r with
  | 1 => (a, N - 1 - b)
  | 2 => (N - 1 - b, a)
  | 3 => (b, a)
  | 4 => (N - 1 - a, N - 1 - b)
  | 5 => (N - 1 - a, b)
  | 6 => (b, N - 1 - a)
  | 7 => (N - 1 - b, N - 1 - a)
  | _ => (a, b)

/-- The tables of the toy board after they have been built. -/
def toyTables : Tables Nat := (num_possible_moves toyAPI Tables.initial).2

/-- The cell `(x, y)` of the board holds a tile with the bit `block`: the test
`board_.at(x, y) & block` of `canonicalized`. -/
def holds {Board Move Key : Type} (B : BoardAPI Board Move Key) (s : BlokusDuoGS Board)
    (x y block : Nat) : Prop :=
  B.at_ s.board_ x y &&& block ≠ 0

instance {Board Move Key : Type} (B : BoardAPI Board Move Key) (s : BlokusDuoGS Board)
    (x y block : Nat) : Decidable (holds B s x y block) := by
  unfold holds; infer_instance

/-- The tile bit of the colour whose turn it is. -/
def tile_to_move {Board Move Key : Type} (B : BoardAPI Board Move Key)
    (s : BlokusDuoGS Board) : Nat :=
  if B.is_violet_turn s.board_ then B.VIOLET_TILE else B.ORANGE_TILE

/-- The tile bit of the colour that is not to move. -/
def tile_of_other {Board Move Key : Type} (B : BoardAPI Board Move Key)
    (s : BlokusDuoGS Board) : Nat :=
  if B.is_violet_turn s.board_ then B.ORANGE_TILE else B.VIOLET_TILE

end alphazero.blokusduo_gs

/-! ## The search tree and its controller

`mcts.h` (the classes `Node` and `MCTS`) and `connect4_gs.h` are not part of the
sources; only their test `src/mcts_test.cc` is. The definitions of this section
follow the specification (sections 3, 4.2 and 4.3) and take their names from the
test. Floating-point values are exact rationals here. -/

namespace alphazero

/-- Modelled from the spec: the abstract game state of section 4.1 (`game_state.h`
is missing), as far as the search controller consumes it: the legal-move mask,
move application, the terminal scores (`none` for an ongoing position) and the
player to move. -/
structure GameContract (State : Type) where
  num_moves : Nat
  valid_moves : State → List Nat
  play_move : State → Nat → State
  scores : State → Option (List ℚ)
  current_player : State → Nat

/-- Modelled from the spec: the `Node` of section 3 (`mcts.h` is missing): the move
that led to the node, its prior, its visit count, its accumulated value and the
ordered children it owns. -/
inductive Node where
  | mk (move : Nat) (policy : ℚ) (n : Nat) (w : ℚ) (children : List Node)

/-- Modelled from the spec: the field `move` of the missing `Node`. -/
def Node.move : Node → Nat
  | .mk m _ _ _ _ => m

/-- Modelled from the spec: the field `policy` of the missing `Node`. -/
def Node.policy : Node → ℚ
  | .mk _ p _ _ _ => p

/-- Modelled from the spec: the field `n` of the missing `Node`. -/
def Node.n : Node → Nat
  | .mk _ _ n _ _ => n

/-- Modelled from the spec: the field `w` of the missing `Node`. -/
def Node.w : Node → ℚ
  | .mk _ _ _ w _ => w

/-- Modelled from the spec: the field `children` of the missing `Node`. -/
def Node.children : Node → List Node
  | .mk _ _ _ _ c => c

/-- Modelled from the spec: the assignment `root.n = 1` of the test, on the
missing `Node`. -/
def Node.set_n : Node → Nat → Node
  | .mk m p _ w children, n => .mk m p n w children

/-- Modelled from the spec: the mean value of the missing `Node`, "`q = w / n` if
`n > 0` else `0`" (section 4.2). -/
def Node.q (nd : Node) : ℚ := if nd.n > 0 then nd.w / nd.n else 0

/-- Modelled from the spec: `Node::uct` of the missing `mcts.h`, the score of
section 4.2: "`score = q + exploration_constant * policy * parent_n / (1 + n)`". -/
def Node.uct (nd : Node) (parent_n : Nat) (cpuct : ℚ) : ℚ :=
  nd.q + cpuct * nd.policy * parent_n / (1 + nd.n)

/-- Modelled from the spec: the scan behind `best_child` and `pick_move` of the
missing `mcts.h`, "stable first-encountered order": the position of the largest
value seen so far changes only on a strictly larger value. The arguments are
the values still to scan, the position of the first of them, the best position
so far and its value. -/
def first_max_scan {α : Type} [LinearOrder α] : List α → Nat → Nat → α → Nat
  | [], _, best, _ => best
  | x :: rest, i, best, top =>
    if x > top then first_max_scan rest (i + 1) i x else first_max_scan rest (i + 1) best top

/-- Modelled from the spec: the position of the first largest value of a list
(0 for the empty list), used by `best_child` and `pick_move` of the missing
`mcts.h`. -/
def first_max {α : Type} [LinearOrder α] : List α → Nat
  | [] => 0
  | x :: rest => first_max_scan rest 1 0 x

/-- Modelled from the spec: `Node::best_child` of the missing `mcts.h` (section
4.2): "returns the child maximizing `score`; ties broken by lowest action index
(stable first-encountered order)", the parent count being the node's own `n` as
in the test; `none` for a node without children (a caller error). -/
def Node.best_child (nd : Node) (cpuct : ℚ) : Option Node :=
  nd.children[first_max (nd.children.map (fun x => x.uct nd.n cpuct))]?

/-- Modelled from the spec: the children that `Node::add_children` of the missing
`mcts.h` creates (section 4.2, `expand`): "exactly one child per set bit in the
legal-move mask, in increasing action-index order, each with `n=0`, `policy=0`,
empty children". -/
def new_children (mask : List Nat) : List Node :=
  ((List.range mask.length).filter (fun i => mask.getD i 0 != 0)).map
    (fun i => Node.mk i 0 0 0 [])

/-- Modelled from the spec: `Node::add_children` of the missing `mcts.h`. -/
def Node.add_children : Node → List Nat → Node
  | .mk m p n w children, mask => .mk m p n w (children ++ new_children mask)

/-- Modelled from the spec: the assignment of one prior on the missing `Node`. -/
def Node.set_policy : Node → ℚ → Node
  | .mk m _ n w children, p => .mk m p n w children

/-- Modelled from the spec: `Node::update_policy` of the missing `mcts.h` (section
4.2, `set_priors`): "for every existing child, sets
`child.policy = policy_vector[child.move]`". -/
def Node.update_policy : Node → List ℚ → Node
  | .mk m p n w children, pi =>
    .mk m p n w (children.map (fun c => c.set_policy (pi.getD c.move 0)))

/-- Modelled from the spec: the class `MCTS` of the missing `mcts.h` (section
4.3): the exploration constant and action-space size it is constructed with, the
root of the tree it owns, the number of completed simulations and the pending
frontier of an unfinished simulation (the path of child positions from the root
and the cloned, advanced game state). -/
structure MCTS (State : Type) where
  cpuct : ℚ
  num_moves : Nat
  root : Node
  depth : Nat
  pending : Option (List Nat × State)

/-- Modelled from the spec: a freshly constructed `MCTS` of the missing `mcts.h`:
an unvisited root without children, no simulation completed or pending. -/
def MCTS.fresh {State : Type} (cpuct : ℚ) (num_moves : Nat) : MCTS State :=
  { cpuct := cpuct, num_moves := num_moves, root := Node.mk 0 0 0 0 [], depth := 0,
    pending := none }

mutual
/-- Modelled from the spec: step 1 (Select) of section 4.3, for the missing
`MCTS::find_leaf`: "repeatedly call `best_child` and replay the corresponding move
on a cloned game state, accumulating the traversed path of nodes, until reaching
a node with no children (unexpanded) or a position for which `scores()` is
non-empty (terminal)". The result is the path of child positions and the state
at the frontier. -/
def Node.select {State : Type} (G : GameContract State) (cpuct : ℚ) :
    Node → State → List Nat × State
  | .mk _ _ n _ children, st =>
    if (G.scores st).isSome then ([], st)
    else if children.isEmpty then ([], st)
    else
      (first_max (children.map (fun x => x.uct n cpuct)) ::
          (select_at G cpuct children
            (first_max (children.map (fun x => x.uct n cpuct))) st).1,
        (select_at G cpuct children
          (first_max (children.map (fun x => x.uct n cpuct))) st).2)
/-- Modelled from the spec: the descent of `Node.select` into the child at a
given position, with the child's move replayed on the state. -/
def select_at {State : Type} (G : GameContract State) (cpuct : ℚ) :
    List Node → Nat → State → List Nat × State
  | [], _, st => ([], st)
  | ch :: _, 0, st => Node.select G cpuct ch (G.play_move st ch.move)
  | _ :: rest, i + 1, st => select_at G cpuct rest i st
end

mutual
/-- Modelled from the spec: steps 3 and 4 (Expand, Backpropagate) of section 4.3,
for the missing `MCTS::process_result`, along a path of child positions: every
node on the path gets `n + 1` and the value added to `w`, the sign of the value
flipping at every ply; the frontier node, if the leaf state is not terminal, is
expanded from the legal-move mask and given its priors. -/
def Node.backprop {State : Type} (G : GameContract State) (leaf : State) (pi : List ℚ) :
    Node → List Nat → ℚ → Node
  | .mk m p n w children, [], v =>
    if (G.scores leaf).isSome then .mk m p (n + 1) (w + v) children
    else
      ((Node.mk m p (n + 1) (w + v) children).add_children (G.valid_moves leaf)).update_policy pi
  | .mk m p n w children, i :: rest, v =>
    .mk m p (n + 1) (w + v) (backprop_at G leaf pi children i rest (-v))
/-- Modelled from the spec: `Node.backprop` continued in the child at a given
position; the other children are left as they are. -/
def backprop_at {State : Type} (G : GameContract State) (leaf : State) (pi : List ℚ) :
    List Node → Nat → List Nat → ℚ → List Node
  | [], _, _, _ => []
  | ch :: tl, 0, rest, v => Node.backprop G leaf pi ch rest v :: tl
  | ch :: tl, i + 1, rest, v => ch :: backprop_at G leaf pi tl i rest v
end

/-- Modelled from the spec: `MCTS::find_leaf` of the missing `mcts.h` (section
4.3): performs the selection from the root on a clone of the given state and
returns the advanced state, the frontier being kept as pending; a call while a
simulation is pending is a contract violation (`none`). -/
def MCTS.find_leaf {State : Type} (G : GameContract State) (m : MCTS State) (gs : State) :
    Option (MCTS State × State) :=
  match m.pending with
  | some _ => none
  | none =>
    some ({ m with pending := some (m.root.select G m.cpuct gs) },
      (m.root.select G m.cpuct gs).2)

/-- Modelled from the spec: `MCTS::process_result` of the missing `mcts.h`
(section 4.3): expands the pending frontier and backpropagates the value, given
from the perspective of the player to move at the frontier; "fails if no
simulation is pending". -/
def MCTS.process_result {State : Type} (G : GameContract State) (m : MCTS State) (value : ℚ)
    (pi : List ℚ) : Option (MCTS State) :=
  match m.pending with
  | none => none
  | some (path, leaf) =>
    some { m with
      root := m.root.backprop G leaf pi path ((-1) ^ path.length * value)
      depth := m.depth + 1
      pending := none }

/-- Modelled from the spec: `MCTS::pick_move` of the missing `mcts.h` (section
4.3): "At `temperature = 0`, returns the action of the most-visited child (ties
broken by lowest action index)"; "Fails if the root has no children". The
randomised choice for a positive temperature is the parameter `sample`. -/
def MCTS.pick_move {State : Type} (sample : ℚ → List (Nat × Nat) → Option Nat)
    (m : MCTS State) (temperature : ℚ) (_num_moves : Nat) : Option Nat :=
  match m.root.children with
  | [] => none
  | x :: rest =>
    if temperature = 0 then
      ((x :: rest)[first_max ((x :: rest).map Node.n)]?).map Node.move
    else sample temperature ((x :: rest).map (fun c => (c.move, c.n)))

/-- Modelled from the spec: one completed simulation on the missing `MCTS`:
`find_leaf`, the evaluator on the returned state, `process_result` (the loop body
of the test). -/
def MCTS.simulate {State : Type} (G : GameContract State) (eval : State → ℚ × List ℚ)
    (gs : State) (m : MCTS State) : MCTS State :=
  match m.find_leaf G gs with
  | none => m
  | some (m1, leaf) =>
    match m1.process_result G (eval leaf).1 (eval leaf).2 with
    | none => m
    | some m2 => m2

/-- The controllers reachable from a fresh one by completed simulations on the
position `gs`, whatever value and policy the caller hands back. -/
inductive MCTS.Reachable {State : Type} (G : GameContract State) (gs : State) (cpuct : ℚ)
    (num_moves : Nat) : MCTS State → Prop where
  | fresh : MCTS.Reachable G gs cpuct num_moves (MCTS.fresh cpuct num_moves)
  | simulate {m m1 m2 : MCTS State} {leaf : State} {value : ℚ} {pi : List ℚ} :
      MCTS.Reachable G gs cpuct num_moves m → m.find_leaf G gs = some (m1, leaf) →
      m1.process_result G value pi = some m2 → MCTS.Reachable G gs cpuct num_moves m2

mutual
/-- All nodes of a tree: the node itself and the nodes of its children. -/
def Node.nodes : Node → List Node
  | .mk m p n w children => Node.mk m p n w children :: nodes_list children
/-- All nodes of a list of trees. -/
def nodes_list : List Node → List Node
  | [] => []
  | c :: tl => Node.nodes c ++ nodes_list tl
end

mutual
/-- The invariant of a tree built by simulations, for the node reached in state
`st`: a node with children is not terminal and has `n = 1 + sum(child.n)`; a
non-terminal node without children is unvisited or has no legal move; the moves
of the children increase; and the children satisfy the same in their states. -/
def Node.inv {State : Type} (G : GameContract State) : Node → State → Prop
  | .mk _ _ n _ children, st =>
    (children ≠ [] → G.scores st = none ∧ n = 1 + (children.map Node.n).sum) ∧
    (children = [] → G.scores st = none → n = 0 ∨ new_children (G.valid_moves st) = []) ∧
    (children.map Node.move).Pairwise (fun a b => a < b) ∧
    inv_list G children st
/-- The invariant for every tree of a list of children of a node in state `st`. -/
def inv_list {State : Type} (G : GameContract State) : List Node → State → Prop
  | [], _ => True
  | c :: tl, st => Node.inv G c (G.play_move st c.move) ∧ inv_list G tl st
end

/-- A two-ply game with two moves per position: a state is the list of the moves
played, and the game is over after two moves. -/
def toyGame : GameContract (List Nat) where
  num_moves := 2
  valid_moves := fun st => if st.length < 2 then [1, 1] else [0, 0]
  play_move := fun st a => st ++ [a]
  scores := fun st => if st.length < 2 then none else some [1, 0, 0]
  current_player := fun st => st.length % 2

/-- An evaluator that returns the value 0 and the uniform policy. -/
def toyEval : List Nat → ℚ × List ℚ := fun _ => (0, [1 / 2, 1 / 2])

/-- The controller of the toy game after one simulation from the start. -/
def toyFirst : MCTS (List Nat) := MCTS.simulate toyGame toyEval [] (MCTS.fresh 2 2)

/-- The controller of the toy game after three simulations from the start. -/
def toyController : MCTS (List Nat) :=
  MCTS.simulate toyGame toyEval []
    (MCTS.simulate toyGame toyEval [] (MCTS.simulate toyGame toyEval [] (MCTS.fresh 2 2)))

/-- The root of the test `Node.Basic`: expanded with the mask of the seven open
columns, priors set from the test's vector, visit count set to 1. -/
def testRoot : Node :=
  (((Node.mk 0 0 0 0 []).add_children [1, 1, 1, 1, 1, 1, 1]).update_policy
    [1 / 10, 6 / 5, 3 / 10, 2 / 5, 1 / 2, 3 / 5, 7 / 10]).set_n 1

end alphazero

namespace alphazero.blokusduo_gs

/-! ## Facts about the map operations -/

section MapFacts

variable {K : Type} [DecidableEq K]

theorem umap_find_assign (mp : List (K × Nat)) (k k1 : K) (v : Nat) :
    umap_find (umap_assign mp k v) k1 = if k = k1 then some v else umap_find mp k1 := by
  induction mp with
  | nil => simp [umap_assign, umap_find]
  | cons hd rest ih =>
    obtain ⟨a, w⟩ := hd
    by_cases hak : a = k
    · subst hak
      by_cases h1 : a = k1 <;> simp [umap_assign, umap_find, h1]
    · by_cases h1 : a = k1
      · subst h1
        have : ¬ k = a := fun h => hak h.symm
        simp [umap_assign, umap_find, hak, this]
      · simp [umap_assign, umap_find, hak, h1, ih]

theorem umap_index_fst (mp : List (K × Nat)) (k : K) :
    (umap_index mp k).1 = (umap_find mp k).getD 0 := by
  unfold umap_index
  cases h : umap_find mp k <;> simp

/-- Reading through `operator[]` never changes what a later read returns. -/
theorem umap_index_snd_getD (mp : List (K × Nat)) (k k1 : K) :
    (umap_find (umap_index mp k).2 k1).getD 0 = (umap_find mp k1).getD 0 := by
  unfold umap_index
  cases h : umap_find mp k with
  | some v => simp
  | none =>
    simp only [umap_find_assign]
    by_cases hk : k = k1
    · subst hk; simp [h]
    · simp [hk]

end MapFacts

section TableFacts

variable {Board Move Key : Type} [DecidableEq Move]

theorem build_map_succ (all : List Move) (k : Nat) (mp : List (Move × Nat)) :
    build_map all (k + 1) mp =
      match all[k]? with
      | some m => umap_assign (build_map all k mp) m k
      | none => build_map all k mp := by
  simp [build_map, List.range_succ, List.foldl_append]

theorem find_build_map_of_absent (all : List Move) (mp : List (Move × Nat)) (m : Move) :
    ∀ k, (∀ j, j < k → all[j]? ≠ some m) →
      umap_find (build_map all k mp) m = umap_find mp m := by
  intro k
  induction k with
  | zero => intro _; simp [build_map]
  | succ k ih =>
    intro h
    have hk := h k (Nat.lt_succ_self k)
    have ih1 := ih (fun j hj => h j (Nat.lt_succ_of_lt hj))
    rw [build_map_succ]
    cases hm : all[k]? with
    | none => simpa using ih1
    | some m1 =>
      have hne : m1 ≠ m := by
        intro e; apply hk; rw [hm, e]
      simp [umap_find_assign, hne, ih1]

theorem find_build_map_last (all : List Move) (mp : List (Move × Nat)) (m : Move) (i : Nat)
    (hi : all[i]? = some m) :
    ∀ k, i < k → (∀ j, i < j → j < k → all[j]? ≠ some m) →
      umap_find (build_map all k mp) m = some i := by
  intro k
  induction k with
  | zero => intro h; omega
  | succ k ih =>
    intro hik hlast
    rw [build_map_succ]
    by_cases hk : i = k
    · subst hk
      simp [hi, umap_find_assign]
    · have hik1 : i < k := by omega
      have ih1 := ih hik1 (fun j h1 h2 => hlast j h1 (Nat.lt_succ_of_lt h2))
      have hkm := hlast k hik1 (Nat.lt_succ_self k)
      cases hm : all[k]? with
      | none => simpa using ih1
      | some m1 =>
        have hne : m1 ≠ m := by
          intro e; apply hkm; rw [hm, e]
        simp [umap_find_assign, hne, ih1]

theorem find_build_map_bound (all : List Move) (m : Move) (v : Nat) :
    ∀ k, umap_find (build_map all k []) m = some v → v < k := by
  intro k
  induction k with
  | zero => intro h; simp [build_map, umap_find] at h
  | succ k ih =>
    rw [build_map_succ]
    cases hm : all[k]? with
    | none =>
      intro h
      exact Nat.lt_succ_of_lt (ih (by simpa using h))
    | some m1 =>
      intro h
      simp only [umap_find_assign] at h
      by_cases e : m1 = m
      · simp [e] at h; omega
      · simp [e] at h
        exact Nat.lt_succ_of_lt (ih h)

theorem compute_possible_moves_initial (B : BoardAPI Board Move Key) :
    compute_possible_moves B Tables.initial =
      { all_possible_moves := B.all_possible_moves
        move_to_index := build_map B.all_possible_moves B.all_possible_moves.length [] } := rfl

theorem index_of_eq (B : BoardAPI Board Move Key) (m : Move) :
    index_of B m =
      (umap_find (build_map B.all_possible_moves B.all_possible_moves.length []) m).getD 0 := rfl

/-- Every index handed out by the built map is inside a non-empty table. -/
theorem index_of_lt (B : BoardAPI Board Move Key) (m : Move)
    (h : B.all_possible_moves ≠ []) : index_of B m < B.all_possible_moves.length := by
  rw [index_of_eq]
  cases hf : umap_find (build_map B.all_possible_moves B.all_possible_moves.length []) m with
  | none => simpa using List.length_pos.mpr h
  | some v => simpa using find_build_map_bound _ _ _ _ hf

/-- A move that is not in the table gets index 0. -/
theorem index_of_not_mem (B : BoardAPI Board Move Key) (m : Move)
    (h : m ∉ B.all_possible_moves) : index_of B m = 0 := by
  rw [index_of_eq, find_build_map_of_absent]
  · simp [umap_find]
  · intro j _ hj
    exact h (List.mem_iff_getElem?.mpr ⟨j, hj⟩)

/-- In a duplicate-free table the map sends the move at index `i` back to `i`. -/
theorem index_of_getElem (B : BoardAPI Board Move Key) (hnd : B.all_possible_moves.Nodup)
    (i : Nat) (hi : i < B.all_possible_moves.length) :
    index_of B (B.all_possible_moves[i]) = i := by
  rw [index_of_eq, find_build_map_last _ _ _ i (List.getElem?_eq_getElem hi) _ hi]
  · rfl
  · intro j hij hj hcontra
    rw [List.getElem?_eq_getElem hj] at hcontra
    have h2 : B.all_possible_moves[j] = B.all_possible_moves[i] := by simpa using hcontra
    have := hnd.getElem_inj_iff.mp h2
    omega

theorem obsEq_index (B : BoardAPI Board Move Key) (mp : List (Move × Nat)) (h : ObsEq B mp)
    (m : Move) : (umap_index mp m).1 = index_of B m ∧ ObsEq B (umap_index mp m).2 := by
  refine ⟨by rw [umap_index_fst, h m], fun m1 => ?_⟩
  rw [umap_index_snd_getD, h m1]

theorem num_possible_moves_spec (B : BoardAPI Board Move Key) (t : Tables Move)
    (h : TablesInv B t) :
    (num_possible_moves B t).1 = B.all_possible_moves.length ∧
    (num_possible_moves B t).2.all_possible_moves = B.all_possible_moves ∧
    ObsEq B (num_possible_moves B t).2.move_to_index ∧
    (B.all_possible_moves = [] → (num_possible_moves B t).2.move_to_index = []) ∧
    TablesInv B (num_possible_moves B t).2 := by
  rcases h with ⟨h1, h2⟩ | ⟨h1, h2, h3⟩
  · have ht : t = Tables.initial := by
      cases t; simp only [Tables.initial] at *; simp [h1, h2]
    subst ht
    have e : num_possible_moves B (Tables.initial : Tables Move) =
        (B.all_possible_moves.length, compute_possible_moves B Tables.initial) := by
      simp [num_possible_moves, Tables.initial, compute_possible_moves]
    rw [e, compute_possible_moves_initial]
    have hobs : ObsEq B (build_map B.all_possible_moves B.all_possible_moves.length []) :=
      fun m => rfl
    have hnil : B.all_possible_moves = [] →
        build_map B.all_possible_moves B.all_possible_moves.length [] = [] := by
      intro h0; rw [h0]; rfl
    refine ⟨rfl, rfl, hobs, hnil, ?_⟩
    by_cases h0 : B.all_possible_moves = []
    · exact Or.inl ⟨h0, hnil h0⟩
    · exact Or.inr ⟨rfl, h0, hobs⟩
  · have hne : t.all_possible_moves.isEmpty = false := by
      rw [h1]; cases hb : B.all_possible_moves with
      | nil => exact absurd hb h2
      | cons a l => rfl
    have e : num_possible_moves B t = (t.all_possible_moves.length, t) := by
      simp [num_possible_moves, hne]
    rw [e]
    exact ⟨by rw [h1], h1, h3, fun h0 => absurd h0 h2, Or.inr ⟨h1, h2, h3⟩⟩

/-- With every index in range, the loop of `valid_moves` is a fold of writes. -/
theorem valid_moves_loop_eq (B : BoardAPI Board Move Key) (ms : List Move) :
    ∀ (valids : List Nat) (mp : List (Move × Nat)), ObsEq B mp →
      (∀ m ∈ ms, index_of B m < valids.length) →
      ∃ mp1, valid_moves_loop ms valids mp =
          some (ms.foldl (fun v m => v.set (index_of B m) 1) valids, mp1) ∧ ObsEq B mp1 := by
  induction ms with
  | nil => intro valids mp h _; exact ⟨mp, rfl, h⟩
  | cons m ms ih =>
    intro valids mp h hb
    obtain ⟨h1, h2⟩ := obsEq_index B mp h m
    have hm := hb m (List.mem_cons_self m ms)
    obtain ⟨mp1, e, ho⟩ := ih (valids.set (index_of B m) 1) (umap_index mp m).2 h2
      (fun m1 hm1 => by rw [List.length_set]; exact hb m1 (List.mem_cons_of_mem m hm1))
    refine ⟨mp1, ?_, ho⟩
    simp only [valid_moves_loop, h1, hm, if_true, List.foldl_cons]
    exact e

theorem valid_moves_loop_nil_valids (ms : List Move) (mp mp1 : List (Move × Nat))
    (v : List Nat) (h : valid_moves_loop ms [] mp = some (v, mp1)) :
    ms = [] ∧ v = [] ∧ mp1 = mp := by
  cases ms with
  | nil =>
    simp only [valid_moves_loop, Option.some.injEq, Prod.mk.injEq] at h
    exact ⟨rfl, h.1.symm, h.2.symm⟩
  | cons m ms => simp [valid_moves_loop] at h

theorem pi_fold_length {α : Type} (B : BoardAPI Board Move Key) (r : Nat) (base_pi : List α)
    (idxs : List Nat) : ∀ pi : List α, (pi_fold B r base_pi idxs pi).length = pi.length := by
  induction idxs with
  | nil => intro pi; rfl
  | cons i rest ih =>
    intro pi
    simp only [pi_fold, List.foldl_cons]
    cases h1 : B.all_possible_moves[i]? with
    | none => exact ih pi
    | some mv =>
      cases h2 : base_pi[i]? with
      | none => exact ih pi
      | some x =>
        have h3 := ih (pi.set (index_of B (B.rotate_move mv r)) x)
        rw [List.length_set] at h3
        exact h3

theorem symmetries_pi_loop_eq {α : Type} (B : BoardAPI Board Move Key) (r : Nat)
    (base_pi : List α) (idxs : List Nat) :
    ∀ (pi : List α) (mp : List (Move × Nat)), ObsEq B mp →
      (∀ i ∈ idxs, i < B.all_possible_moves.length ∧ i < base_pi.length) →
      (∀ m, index_of B m < pi.length) →
      ∃ mp1, symmetries_pi_loop B r base_pi B.all_possible_moves idxs pi mp =
          some (pi_fold B r base_pi idxs pi, mp1) ∧ ObsEq B mp1 := by
  induction idxs with
  | nil => intro pi mp h _ _; exact ⟨mp, rfl, h⟩
  | cons i rest ih =>
    intro pi mp h hi hb
    obtain ⟨hi1, hi2⟩ := hi i (List.mem_cons_self i rest)
    obtain ⟨h1, h2⟩ := obsEq_index B mp h (B.rotate_move B.all_possible_moves[i] r)
    obtain ⟨mp1, e, ho⟩ := ih
      (pi.set (index_of B (B.rotate_move B.all_possible_moves[i] r)) base_pi[i])
      (umap_index mp (B.rotate_move B.all_possible_moves[i] r)).2 h2
      (fun j hj => hi j (List.mem_cons_of_mem i hj))
      (fun m => by rw [List.length_set]; exact hb m)
    refine ⟨mp1, ?_, ho⟩
    simp only [symmetries_pi_loop, pi_fold, List.foldl_cons, List.getElem?_eq_getElem hi1,
      List.getElem?_eq_getElem hi2, h1, hb, if_true]
    exact e

theorem symmetries_inner_eq {α : Type} (B : BoardAPI Board Move Key) (fresh : α)
    (base_pi : List α) (hn : B.all_possible_moves.length = base_pi.length) (r : Nat)
    (mp : List (Move × Nat)) (h : ObsEq B mp) :
    ∃ mp1, symmetries_pi_loop B r base_pi B.all_possible_moves
        (List.range B.all_possible_moves.length)
        (List.replicate B.all_possible_moves.length fresh) mp =
          some (relabel B fresh base_pi r, mp1) ∧ ObsEq B mp1 ∧
          (B.all_possible_moves = [] → mp1 = mp) := by
  by_cases h0 : B.all_possible_moves = []
  · refine ⟨mp, ?_, h, fun _ => rfl⟩
    simp [relabel, pi_fold, h0, symmetries_pi_loop]
  · obtain ⟨mp1, e, ho⟩ := symmetries_pi_loop_eq B r base_pi
      (List.range B.all_possible_moves.length)
      (List.replicate B.all_possible_moves.length fresh) mp h
      (fun i hi => by
        have := List.mem_range.mp hi
        exact ⟨this, by omega⟩)
      (fun m => by rw [List.length_replicate]; exact index_of_lt B m h0)
    exact ⟨mp1, e, ho, fun h1 => absurd h1 h0⟩

theorem symmetries_loop_eq {α V : Type} (B : BoardAPI Board Move Key) (fresh : α)
    (base : PlayHistory α V) (hn : B.all_possible_moves.length = base.pi.length)
    (rs : List Nat) :
    ∀ (syms : List (PlayHistory α V)) (mp : List (Move × Nat)), ObsEq B mp →
      (∀ r ∈ rs, r < syms.length) →
      ∃ mp1, symmetries_loop B fresh base B.all_possible_moves B.all_possible_moves.length
          rs syms mp = some (syms_fold B fresh base rs syms, mp1) ∧ ObsEq B mp1 ∧
          (B.all_possible_moves = [] → mp1 = mp) := by
  induction rs with
  | nil => intro syms mp h _; exact ⟨mp, rfl, h, fun _ => rfl⟩
  | cons r rest ih =>
    intro syms mp h hr
    have hr0 := hr r (List.mem_cons_self r rest)
    obtain ⟨mp1, e1, ho1, hk1⟩ := symmetries_inner_eq B fresh base.pi hn r mp h
    obtain ⟨mp2, e2, ho2, hk2⟩ := ih
      (syms.set r { syms[r] with v := base.v, pi := relabel B fresh base.pi r }) mp1 ho1
      (fun j hj => by rw [List.length_set]; exact hr j (List.mem_cons_of_mem r hj))
    refine ⟨mp2, ?_, ho2, fun h0 => by rw [hk2 h0, hk1 h0]⟩
    simp only [symmetries_loop, syms_fold, List.foldl_cons, List.getElem?_eq_getElem hr0, e1]
    exact e2

/-- The seven tensor assignments at the start of `symmetries`. -/
theorem symmetries_stage {α V : Type} (dflt base : PlayHistory α V) :
    assign_canonical (assign_canonical (assign_canonical (assign_canonical (assign_canonical
      (assign_canonical (assign_canonical ((List.replicate 8 dflt).set 0 base)
        3 0 Tensor3.shuffle) 2 3 Tensor3.reverse) 5 2 Tensor3.shuffle) 4 5 Tensor3.reverse)
        7 4 Tensor3.shuffle) 6 7 Tensor3.reverse) 1 6 Tensor3.shuffle =
    [base, { dflt with canonical := canon_sym base.canonical 1 },
      { dflt with canonical := canon_sym base.canonical 2 },
      { dflt with canonical := canon_sym base.canonical 3 },
      { dflt with canonical := canon_sym base.canonical 4 },
      { dflt with canonical := canon_sym base.canonical 5 },
      { dflt with canonical := canon_sym base.canonical 6 },
      { dflt with canonical := canon_sym base.canonical 7 }] := by
  have s0 : (List.replicate 8 dflt).set 0 base =
      [base, dflt, dflt, dflt, dflt, dflt, dflt, dflt] := rfl
  have s1 : assign_canonical
      [base,
      dflt,
      dflt,
      dflt,
      dflt,
      dflt,
      dflt,
      dflt] 3 0 Tensor3.shuffle =
      [base,
      dflt,
      dflt,
      { dflt with canonical := canon_sym base.canonical 3 },
      dflt,
      dflt,
      dflt,
      dflt] := by
    simp only [assign_canonical, List.set, List.getElem?_cons_zero, List.getElem?_cons_succ,
      canon_sym]
  have s2 : assign_canonical
      [base,
      dflt,
      dflt,
      { dflt with canonical := canon_sym base.canonical 3 },
      dflt,
      dflt,
      dflt,
      dflt] 2 3 Tensor3.reverse =
      [base,
      dflt,
      { dflt with canonical := canon_sym base.canonical 2 },
      { dflt with canonical := canon_sym base.canonical 3 },
      dflt,
      dflt,
      dflt,
      dflt] := by
    simp only [assign_canonical, List.set, List.getElem?_cons_zero, List.getElem?_cons_succ,
      canon_sym]
  have s3 : assign_canonical
      [base,
      dflt,
      { dflt with canonical := canon_sym base.canonical 2 },
      { dflt with canonical := canon_sym base.canonical 3 },
      dflt,
      dflt,
      dflt,
      dflt] 5 2 Tensor3.shuffle =
      [base,
      dflt,
      { dflt with canonical := canon_sym base.canonical 2 },
      { dflt with canonical := canon_sym base.canonical 3 },
      dflt,
      { dflt with canonical := canon_sym base.canonical 5 },
      dflt,
      dflt] := by
    simp only [assign_canonical, List.set, List.getElem?_cons_zero, List.getElem?_cons_succ,
      canon_sym]
  have s4 : assign_canonical
      [base,
      dflt,
      { dflt with canonical := canon_sym base.canonical 2 },
      { dflt with canonical := canon_sym base.canonical 3 },
      dflt,
      { dflt with canonical := canon_sym base.canonical 5 },
      dflt,
      dflt] 4 5 Tensor3.reverse =
      [base,
      dflt,
      { dflt with canonical := canon_sym base.canonical 2 },
      { dflt with canonical := canon_sym base.canonical 3 },
      { dflt with canonical := canon_sym base.canonical 4 },
      { dflt with canonical := canon_sym base.canonical 5 },
      dflt,
      dflt] := by
    simp only [assign_canonical, List.set, List.getElem?_cons_zero, List.getElem?_cons_succ,
      canon_sym]
  have s5 : assign_canonical
      [base,
      dflt,
      { dflt with canonical := canon_sym base.canonical 2 },
      { dflt with canonical := canon_sym base.canonical 3 },
      { dflt with canonical := canon_sym base.canonical 4 },
      { dflt with canonical := canon_sym base.canonical 5 },
      dflt,
      dflt] 7 4 Tensor3.shuffle =
      [base,
      dflt,
      { dflt with canonical := canon_sym base.canonical 2 },
      { dflt with canonical := canon_sym base.canonical 3 },
      { dflt with canonical := canon_sym base.canonical 4 },
      { dflt with canonical := canon_sym base.canonical 5 },
      dflt,
      { dflt with canonical := canon_sym base.canonical 7 }] := by
    simp only [assign_canonical, List.set, List.getElem?_cons_zero, List.getElem?_cons_succ,
      canon_sym]
  have s6 : assign_canonical
      [base,
      dflt,
      { dflt with canonical := canon_sym base.canonical 2 },
      { dflt with canonical := canon_sym base.canonical 3 },
      { dflt with canonical := canon_sym base.canonical 4 },
      { dflt with canonical := canon_sym base.canonical 5 },
      dflt,
      { dflt with canonical := canon_sym base.canonical 7 }] 6 7 Tensor3.reverse =
      [base,
      dflt,
      { dflt with canonical := canon_sym base.canonical 2 },
      { dflt with canonical := canon_sym base.canonical 3 },
      { dflt with canonical := canon_sym base.canonical 4 },
      { dflt with canonical := canon_sym base.canonical 5 },
      { dflt with canonical := canon_sym base.canonical 6 },
      { dflt with canonical := canon_sym base.canonical 7 }] := by
    simp only [assign_canonical, List.set, List.getElem?_cons_zero, List.getElem?_cons_succ,
      canon_sym]
  have s7 : assign_canonical
      [base,
      dflt,
      { dflt with canonical := canon_sym base.canonical 2 },
      { dflt with canonical := canon_sym base.canonical 3 },
      { dflt with canonical := canon_sym base.canonical 4 },
      { dflt with canonical := canon_sym base.canonical 5 },
      { dflt with canonical := canon_sym base.canonical 6 },
      { dflt with canonical := canon_sym base.canonical 7 }] 1 6 Tensor3.shuffle =
      [base,
      { dflt with canonical := canon_sym base.canonical 1 },
      { dflt with canonical := canon_sym base.canonical 2 },
      { dflt with canonical := canon_sym base.canonical 3 },
      { dflt with canonical := canon_sym base.canonical 4 },
      { dflt with canonical := canon_sym base.canonical 5 },
      { dflt with canonical := canon_sym base.canonical 6 },
      { dflt with canonical := canon_sym base.canonical 7 }] := by
    simp only [assign_canonical, List.set, List.getElem?_cons_zero, List.getElem?_cons_succ,
      canon_sym]
  rw [s0, s1, s2, s3, s4, s5, s6, s7]

theorem syms_fold_stage {α V : Type} (B : BoardAPI Board Move Key) (fresh : α)
    (dflt base : PlayHistory α V) :
    syms_fold B fresh base [1, 2, 3, 4, 5, 6, 7]
      [base, { dflt with canonical := canon_sym base.canonical 1 },
        { dflt with canonical := canon_sym base.canonical 2 },
        { dflt with canonical := canon_sym base.canonical 3 },
        { dflt with canonical := canon_sym base.canonical 4 },
        { dflt with canonical := canon_sym base.canonical 5 },
        { dflt with canonical := canon_sym base.canonical 6 },
        { dflt with canonical := canon_sym base.canonical 7 }] =
    [base, sym_record B fresh base 1, sym_record B fresh base 2,
      sym_record B fresh base 3, sym_record B fresh base 4, sym_record B fresh base 5,
      sym_record B fresh base 6, sym_record B fresh base 7] := by
  simp only [syms_fold, List.foldl_cons, List.foldl_nil, List.set, List.getElem?_cons_zero,
    List.getElem?_cons_succ, List.getElem_cons_zero, List.getElem_cons_succ, sym_record]

/-- The closed form of `symmetries`: it returns, and returns these eight records. -/
theorem symmetries_eq {α V : Type} (B : BoardAPI Board Move Key) (t : Tables Move)
    (dflt : PlayHistory α V) (fresh : α) (s : BlokusDuoGS Board) (base : PlayHistory α V)
    (ht : TablesInv B t) (hn : base.pi.length = B.all_possible_moves.length) :
    ∃ t1, BlokusDuoGS.symmetries B t dflt fresh s base =
        some ([base, sym_record B fresh base 1, sym_record B fresh base 2,
          sym_record B fresh base 3, sym_record B fresh base 4, sym_record B fresh base 5,
          sym_record B fresh base 6, sym_record B fresh base 7], t1) ∧ TablesInv B t1 := by
  obtain ⟨e1, e2, ho, hnil, _⟩ := num_possible_moves_spec B t ht
  obtain ⟨mp1, e, ho1, hk1⟩ := symmetries_loop_eq B fresh base hn.symm [1, 2, 3, 4, 5, 6, 7]
    [base, { dflt with canonical := canon_sym base.canonical 1 },
      { dflt with canonical := canon_sym base.canonical 2 },
      { dflt with canonical := canon_sym base.canonical 3 },
      { dflt with canonical := canon_sym base.canonical 4 },
      { dflt with canonical := canon_sym base.canonical 5 },
      { dflt with canonical := canon_sym base.canonical 6 },
      { dflt with canonical := canon_sym base.canonical 7 }]
    (num_possible_moves B t).2.move_to_index ho
    (fun r hr => by simp at hr; simp; omega)
  refine ⟨{ all_possible_moves := B.all_possible_moves, move_to_index := mp1 }, ?_, ?_⟩
  · unfold BlokusDuoGS.symmetries BlokusDuoGS.num_moves
    dsimp only
    rw [symmetries_stage dflt base, e1, e2, if_neg (fun hc => hc hn.symm), e,
      syms_fold_stage B fresh dflt base]
  · by_cases h0 : B.all_possible_moves = []
    · exact Or.inl ⟨h0, by rw [hk1 h0]; exact hnil h0⟩
    · exact Or.inr ⟨rfl, h0, ho1⟩

theorem valid_moves_eq (B : BoardAPI Board Move Key) (t : Tables Move) (s : BlokusDuoGS Board)
    (ht : TablesInv B t)
    (hv : B.all_possible_moves = [] → B.valid_moves s.board_ = []) :
    ∃ t1, BlokusDuoGS.valid_moves B t s =
        some ((B.valid_moves s.board_).foldl (fun v m => v.set (index_of B m) 1)
          (List.replicate B.all_possible_moves.length 0), t1) ∧ TablesInv B t1 ∧
        t1.all_possible_moves = B.all_possible_moves := by
  obtain ⟨e1, e2, ho, hnil, hinv⟩ := num_possible_moves_spec B t ht
  by_cases h0 : B.all_possible_moves = []
  · refine ⟨⟨B.all_possible_moves, (num_possible_moves B t).2.move_to_index⟩, ?_,
      Or.inl ⟨h0, hnil h0⟩, rfl⟩
    simp only [BlokusDuoGS.valid_moves, BlokusDuoGS.num_moves, e1, e2, hv h0,
      valid_moves_loop, List.foldl_nil]
  · obtain ⟨mp1, e, ho1⟩ := valid_moves_loop_eq B (B.valid_moves s.board_)
      (List.replicate B.all_possible_moves.length 0) (num_possible_moves B t).2.move_to_index ho
      (fun m _ => by rw [List.length_replicate]; exact index_of_lt B m h0)
    refine ⟨{ all_possible_moves := B.all_possible_moves, move_to_index := mp1 }, ?_,
      Or.inr ⟨rfl, h0, ho1⟩, rfl⟩
    simp only [BlokusDuoGS.valid_moves, BlokusDuoGS.num_moves, e1, e2, e]

theorem valid_moves_inv (B : BoardAPI Board Move Key) (t t1 : Tables Move)
    (s : BlokusDuoGS Board) (v : List Nat) (ht : TablesInv B t)
    (h : BlokusDuoGS.valid_moves B t s = some (v, t1)) : TablesInv B t1 := by
  by_cases hv : B.all_possible_moves = [] → B.valid_moves s.board_ = []
  · obtain ⟨t2, e, hinv, _⟩ := valid_moves_eq B t s ht hv
    rw [e] at h
    simp only [Option.some.injEq, Prod.mk.injEq] at h
    rw [← h.2]; exact hinv
  · exfalso
    have h0 : B.all_possible_moves = [] := by
      by_contra hc; exact hv (fun h1 => absurd h1 hc)
    obtain ⟨e1, e2, _, _, _⟩ := num_possible_moves_spec B t ht
    simp only [BlokusDuoGS.valid_moves, BlokusDuoGS.num_moves, e1, e2, h0, List.length_nil,
      List.replicate] at h
    cases hl : valid_moves_loop (B.valid_moves s.board_) []
        (num_possible_moves B t).2.move_to_index with
    | none => rw [hl] at h; simp at h
    | some p =>
      obtain ⟨v1, mp1⟩ := p
      exact hv (fun _ => (valid_moves_loop_nil_valids _ _ _ _ hl).1)

theorem symmetries_inv {α V : Type} (B : BoardAPI Board Move Key) (t t1 : Tables Move)
    (dflt : PlayHistory α V) (fresh : α) (s : BlokusDuoGS Board) (base : PlayHistory α V)
    (out : List (PlayHistory α V)) (ht : TablesInv B t)
    (h : BlokusDuoGS.symmetries B t dflt fresh s base = some (out, t1)) : TablesInv B t1 := by
  by_cases hn : base.pi.length = B.all_possible_moves.length
  · obtain ⟨t2, e, hinv⟩ := symmetries_eq B t dflt fresh s base ht hn
    rw [e] at h
    simp only [Option.some.injEq, Prod.mk.injEq] at h
    rw [← h.2]; exact hinv
  · exfalso
    obtain ⟨e1, _, _, _, _⟩ := num_possible_moves_spec B t ht
    have hne : ¬ B.all_possible_moves.length = base.pi.length := fun e => hn e.symm
    simp [BlokusDuoGS.symmetries, BlokusDuoGS.num_moves, e1, hne] at h

/-- Every table state a process can reach satisfies the invariant. -/
theorem reachable_inv (B : BoardAPI Board Move Key) (t : Tables Move) (h : Reachable B t) :
    TablesInv B t := by
  induction h with
  | initial => exact Or.inl ⟨rfl, rfl⟩
  | num_moves _ ih => exact (num_possible_moves_spec B _ ih).2.2.2.2
  | valid_moves _ hv ih => exact valid_moves_inv B _ _ _ _ ih hv
  | symmetries _ hs ih => exact symmetries_inv B _ _ _ _ _ _ _ ih hs

omit [DecidableEq Move] in
theorem foldl_set_one_length (f : Move → Nat) (ms : List Move) :
    ∀ v : List Nat, (ms.foldl (fun v m => v.set (f m) 1) v).length = v.length := by
  induction ms with
  | nil => intro v; rfl
  | cons m ms ih => intro v; simp only [List.foldl_cons, ih, List.length_set]

omit [DecidableEq Move] in
/-- An entry that no move of the list is mapped to keeps its value. -/
theorem foldl_set_one_miss (f : Move → Nat) (i : Nat) (ms : List Move) :
    ∀ v : List Nat, (∀ m ∈ ms, f m ≠ i) →
      (ms.foldl (fun v m => v.set (f m) 1) v)[i]? = v[i]? := by
  induction ms with
  | nil => intro v _; rfl
  | cons m ms ih =>
    intro v h
    simp only [List.foldl_cons]
    rw [ih (v.set (f m) 1) (fun m1 h1 => h m1 (List.mem_cons_of_mem m h1))]
    exact List.getElem?_set_ne (h m (List.mem_cons_self m ms))

omit [DecidableEq Move] in
/-- An entry that some move of the list is mapped to ends as 1. -/
theorem foldl_set_one_hit (f : Move → Nat) (i : Nat) (ms : List Move) :
    ∀ v : List Nat, i < v.length → (∃ m ∈ ms, f m = i) →
      (ms.foldl (fun v m => v.set (f m) 1) v)[i]? = some 1 := by
  induction ms with
  | nil => intro v _ hex; obtain ⟨m, hm, _⟩ := hex; simp at hm
  | cons m ms ih =>
    intro v hi hex
    simp only [List.foldl_cons]
    by_cases hrest : ∃ m1 ∈ ms, f m1 = i
    · exact ih (v.set (f m) 1) (by rw [List.length_set]; exact hi) hrest
    · obtain ⟨m1, hm1, hf⟩ := hex
      rcases List.mem_cons.mp hm1 with rfl | hin
      · rw [foldl_set_one_miss f i ms _ (fun m2 h2 hc => hrest ⟨m2, h2, hc⟩), ← hf]
        exact List.getElem?_set_self (by rw [hf]; exact hi)
      · exact absurd ⟨m1, hin, hf⟩ hrest

end TableFacts

/-! ## The mask of playable moves, `play_move` and `scores` -/

section Claims

/-- C1. In every reachable table state and for every game state, provided the
board's enumeration has no duplicates and every move the board reports as
playable is listed in it, `valid_moves()` returns a vector of length
`num_moves()` whose entries are all 0 or 1, and entry `i` is 1 exactly when the
table's move `i` is one of the playable moves, and 0 otherwise. -/
theorem valid_moves_is_mask_of_playable {Board Move Key : Type} [DecidableEq Move]
    (B : BoardAPI Board Move Key) (t : Tables Move) (s : BlokusDuoGS Board) (ht : Reachable B t) (hnd : B.all_possible_moves.Nodup)
    (hsub : ∀ m ∈ B.valid_moves s.board_, m ∈ B.all_possible_moves) :
    ∃ v t1, BlokusDuoGS.valid_moves B t s = some (v, t1) ∧
      v.length = (BlokusDuoGS.num_moves B t s).1 ∧
      (∀ x ∈ v, x = 0 ∨ x = 1) ∧
      t1.all_possible_moves = B.all_possible_moves ∧
      ∀ i m, i < (BlokusDuoGS.num_moves B t s).1 → t1.all_possible_moves[i]? = some m →
        (v[i]? = some 1 ↔ m ∈ B.valid_moves s.board_) ∧
        (v[i]? = some 0 ↔ m ∉ B.valid_moves s.board_) := by
  have hinv := reachable_inv B t ht
  obtain ⟨e1, -, -, -, -⟩ := num_possible_moves_spec B t hinv
  obtain ⟨t1, e, -, hall⟩ := valid_moves_eq B t s hinv (fun h0 => by
    cases hv : B.valid_moves s.board_ with
    | nil => rfl
    | cons m ms =>
      have := hsub m (by rw [hv]; exact List.mem_cons_self m ms)
      rw [h0] at this; simp at this)
  have hlen := foldl_set_one_length (index_of B) (B.valid_moves s.board_)
    (List.replicate B.all_possible_moves.length 0)
  rw [List.length_replicate] at hlen
  -- the value of one entry, by whether its move is playable
  have hentry : ∀ i (hi : i < B.all_possible_moves.length),
      (B.all_possible_moves[i] ∈ B.valid_moves s.board_ →
        ((B.valid_moves s.board_).foldl (fun v m => v.set (index_of B m) 1)
          (List.replicate B.all_possible_moves.length 0))[i]? = some 1) ∧
      (B.all_possible_moves[i] ∉ B.valid_moves s.board_ →
        ((B.valid_moves s.board_).foldl (fun v m => v.set (index_of B m) 1)
          (List.replicate B.all_possible_moves.length 0))[i]? = some 0) := by
    intro i hi
    constructor
    · intro hmem
      exact foldl_set_one_hit (index_of B) i _ _ (by rw [List.length_replicate]; exact hi)
        ⟨_, hmem, index_of_getElem B hnd i hi⟩
    · intro hnot
      rw [foldl_set_one_miss (index_of B) i]
      · simp [List.getElem?_replicate, hi]
      · intro m hm hc
        obtain ⟨j, hj, rfl⟩ := List.mem_iff_getElem.mp (hsub m hm)
        rw [index_of_getElem B hnd j hj] at hc
        subst hc
        exact hnot hm
  refine ⟨_, t1, e, ?_, ?_, hall, ?_⟩
  · rw [hlen]; exact e1.symm
  · intro x hx
    obtain ⟨i, hi, rfl⟩ := List.mem_iff_getElem.mp hx
    have hi1 : i < B.all_possible_moves.length := by rw [← hlen]; exact hi
    by_cases hmem : B.all_possible_moves[i] ∈ B.valid_moves s.board_
    · have := (hentry i hi1).1 hmem
      rw [List.getElem?_eq_getElem hi] at this
      exact Or.inr (Option.some.inj this)
    · have := (hentry i hi1).2 hmem
      rw [List.getElem?_eq_getElem hi] at this
      exact Or.inl (Option.some.inj this)
  · intro i m hi hm
    have hi1 : i < B.all_possible_moves.length := by
      rw [← e1]; exact hi
    rw [hall, List.getElem?_eq_getElem hi1] at hm
    have hm1 : B.all_possible_moves[i] = m := Option.some.inj hm
    subst hm1
    by_cases hmem : B.all_possible_moves[i] ∈ B.valid_moves s.board_
    · have h1 := (hentry i hi1).1 hmem
      rw [h1]; simp [hmem]
    · have h0 := (hentry i hi1).2 hmem
      rw [h0]; simp [hmem]

/-- C1, on the toy board after two moves: the mask is `[0, 1, 0, 1]`. -/
theorem valid_moves_is_mask_of_playable_witness :
    (Reachable toyAPI (Tables.initial : Tables Nat) ∧ toyAPI.all_possible_moves.Nodup ∧
      ∀ m ∈ toyAPI.valid_moves toyMid.board_, m ∈ toyAPI.all_possible_moves) ∧
    ∃ v t1, BlokusDuoGS.valid_moves toyAPI Tables.initial toyMid = some (v, t1) ∧
      v.length = (BlokusDuoGS.num_moves toyAPI Tables.initial toyMid).1 ∧
      (∀ x ∈ v, x = 0 ∨ x = 1) ∧
      t1.all_possible_moves = toyAPI.all_possible_moves ∧
      ∀ i m, i < (BlokusDuoGS.num_moves toyAPI Tables.initial toyMid).1 →
        t1.all_possible_moves[i]? = some m →
        (v[i]? = some 1 ↔ m ∈ toyAPI.valid_moves toyMid.board_) ∧
        (v[i]? = some 0 ↔ m ∉ toyAPI.valid_moves toyMid.board_) :=
  ⟨⟨Reachable.initial, by decide, by decide⟩,
    valid_moves_is_mask_of_playable toyAPI Tables.initial toyMid Reachable.initial
      (by decide) (by decide)⟩

/-- C2 as stated fails: on the toy board with built tables, index 4 is not below
`num_moves() = 4`, and `play_move(4)` does not end in the invalid-move failure:
the read `all_possible_moves[4]` is beyond the end of the vector and nothing
checks it. -/
theorem play_move_beyond_table_counterexample :
    Reachable toyAPI toyTables ∧
    (BlokusDuoGS.num_moves toyAPI toyTables toyStart).1 = 4 ∧
    BlokusDuoGS.play_move toyAPI toyTables toyStart 4 = Except.error PlayError.out_of_range ∧
    BlokusDuoGS.play_move toyAPI toyTables toyStart 4 ≠ Except.error PlayError.invalid_move := by
  refine ⟨Reachable.num_moves Reachable.initial, rfl, rfl, ?_⟩
  intro h
  have h1 : BlokusDuoGS.play_move toyAPI toyTables toyStart 4 =
      Except.error PlayError.out_of_range := rfl
  rw [h1] at h
  cases h

/-- C2, amended. For every table state, game state and index `a` that is inside
the table: `play_move(a)` applies the table's move `a` to the board when the board
accepts that move, and otherwise stops at its validity assertion without a new
state; and whenever `play_move(a)` produces a state, it is the board after the
table's move `a`, which the board accepted (no illegal move is ever applied). -/
theorem play_move_checked_inside_table {Board Move Key : Type}
    (B : BoardAPI Board Move Key) (t : Tables Move) (s : BlokusDuoGS Board) (a : Nat) :
    (∀ m, t.all_possible_moves[a]? = some m →
      (B.is_valid_move s.board_ m = true →
        BlokusDuoGS.play_move B t s a = Except.ok { board_ := B.play_move s.board_ m }) ∧
      (B.is_valid_move s.board_ m = false →
        BlokusDuoGS.play_move B t s a = Except.error PlayError.invalid_move)) ∧
    (∀ s1, BlokusDuoGS.play_move B t s a = Except.ok s1 →
      ∃ m, t.all_possible_moves[a]? = some m ∧ B.is_valid_move s.board_ m = true ∧
        s1 = { board_ := B.play_move s.board_ m }) := by
  constructor
  · intro m hm
    constructor
    · intro hv; simp [BlokusDuoGS.play_move, hm, hv]
    · intro hv; simp [BlokusDuoGS.play_move, hm, hv]
  · intro s1 h
    unfold BlokusDuoGS.play_move at h
    cases hm : t.all_possible_moves[a]? with
    | none => rw [hm] at h; cases h
    | some m =>
      rw [hm] at h
      by_cases hv : B.is_valid_move s.board_ m = true
      · simp only [hv, if_true] at h
        exact ⟨m, rfl, hv, (Except.ok.inj h).symm⟩
      · simp only [hv] at h
        cases h

/-- C2 amended, on the toy board: move 1 is played, move 0 (occupied) is refused. -/
theorem play_move_checked_inside_table_witness :
    BlokusDuoGS.play_move toyAPI toyTables toyMid 1 =
      Except.ok { board_ := { cells := [1, 1, 2, 0], violet_turn := false } } ∧
    BlokusDuoGS.play_move toyAPI toyTables toyMid 0 = Except.error PlayError.invalid_move :=
  ⟨((play_move_checked_inside_table toyAPI toyTables toyMid 1).1 1 rfl).1 rfl,
    ((play_move_checked_inside_table toyAPI toyTables toyMid 0).1 0 rfl).2 rfl⟩

/-- C3. For every state, `scores()` returns no value exactly when the board's
game is not over, and returns a vector exactly when it is over. -/
theorem scores_none_iff_not_over {Board Move Key : Type} (B : BoardAPI Board Move Key)
    (s : BlokusDuoGS Board) :
    (BlokusDuoGS.scores B s = none ↔ B.is_game_over s.board_ = false) ∧
    ((∃ v, BlokusDuoGS.scores B s = some v) ↔ B.is_game_over s.board_ = true) := by
  unfold BlokusDuoGS.scores
  cases h : B.is_game_over s.board_
  · simp
  · simp only [Bool.not_true, Bool.false_eq_true, if_false]
    constructor
    · constructor
      · intro h1; split_ifs at h1
      · intro h1; cases h1
    · constructor
      · intro _; trivial
      · intro _; split_ifs <;> exact ⟨_, rfl⟩

/-- C4. For every game-over state, `scores()` returns a vector of length 3
(= `num_players() + 1`) that is one of `[1, 0, 0]`, `[0, 1, 0]`, `[0, 0, 1]`
(exactly one entry 1, the others 0): entry 0 is 1 iff player 0 scores more than
player 1, entry 1 is 1 iff player 0 scores less, entry 2 is 1 iff the scores are
equal. -/
theorem scores_one_hot {Board Move Key : Type} (B : BoardAPI Board Move Key)
    (s : BlokusDuoGS Board)
    (hover : B.is_game_over s.board_ = true) :
    ∃ v, BlokusDuoGS.scores B s = some v ∧
      v.length = 3 ∧ v.length = BlokusDuoGS.num_players s + 1 ∧
      (v = [1, 0, 0] ∨ v = [0, 1, 0] ∨ v = [0, 0, 1]) ∧
      (v[0]? = some 1 ↔ B.score s.board_ 0 > B.score s.board_ 1) ∧
      (v[1]? = some 1 ↔ B.score s.board_ 0 < B.score s.board_ 1) ∧
      (v[2]? = some 1 ↔ B.score s.board_ 0 = B.score s.board_ 1) := by
  unfold BlokusDuoGS.scores BlokusDuoGS.num_players
  simp only [hover, Bool.not_true, Bool.false_eq_true, if_false]
  by_cases h1 : B.score s.board_ 0 - B.score s.board_ 1 > 0
  · refine ⟨[1, 0, 0], by simp [h1, List.replicate], rfl, rfl, Or.inl rfl, ?_, ?_, ?_⟩
    · simp; omega
    · simp; omega
    · simp; omega
  · by_cases h2 : B.score s.board_ 0 - B.score s.board_ 1 < 0
    · refine ⟨[0, 1, 0], by simp [h1, h2, List.replicate], rfl, rfl, Or.inr (Or.inl rfl),
        ?_, ?_, ?_⟩
      · simp; omega
      · simp; omega
      · simp; omega
    · refine ⟨[0, 0, 1], by simp [h1, h2, List.replicate], rfl, rfl, Or.inr (Or.inr rfl),
        ?_, ?_, ?_⟩
      · simp; omega
      · simp; omega
      · simp; omega

/-- C4, on the finished toy game (violet 3, orange 1): the vector is `[1, 0, 0]`. -/
theorem scores_one_hot_witness :
    toyAPI.is_game_over toyEnd.board_ = true ∧
    ∃ v, BlokusDuoGS.scores toyAPI toyEnd = some v ∧
      v.length = 3 ∧ v.length = BlokusDuoGS.num_players toyEnd + 1 ∧
      (v = [1, 0, 0] ∨ v = [0, 1, 0] ∨ v = [0, 0, 1]) ∧
      (v[0]? = some 1 ↔ toyAPI.score toyEnd.board_ 0 > toyAPI.score toyEnd.board_ 1) ∧
      (v[1]? = some 1 ↔ toyAPI.score toyEnd.board_ 0 < toyAPI.score toyEnd.board_ 1) ∧
      (v[2]? = some 1 ↔ toyAPI.score toyEnd.board_ 0 = toyAPI.score toyEnd.board_ 1) :=
  ⟨by decide, scores_one_hot toyAPI toyEnd (by decide)⟩

/-! ## The canonical encoding -/

/-- One run of the innermost loop of `canonicalized` writes a row. -/
theorem write_row {α : Type} (g : Nat → α) (c y : Nat) (out : Tensor3 α) (n : Nat) :
    (List.range n).foldl (fun o x => o.write c y x (g x)) out =
      { out with
        data := fun c1 y1 x1 =>
          if c1 = c ∧ y1 = y ∧ x1 < n then g x1 else out.data c1 y1 x1 } := by
  induction n with
  | zero => simp
  | succ n ih =>
    rw [List.range_succ, List.foldl_append, ih]
    simp only [List.foldl_cons, List.foldl_nil, Tensor3.write]
    congr 1
    funext c1 y1 x1
    by_cases h1 : c1 = c ∧ y1 = y ∧ x1 = n
    · obtain ⟨rfl, rfl, rfl⟩ := h1; simp
    · by_cases h2 : c1 = c ∧ y1 = y ∧ x1 < n
      · have h3 : c1 = c ∧ y1 = y ∧ x1 < n + 1 := ⟨h2.1, h2.2.1, by omega⟩
        rw [if_neg h1, if_pos h2, if_pos h3]
      · have h3 : ¬ (c1 = c ∧ y1 = y ∧ x1 < n + 1) := by
          intro h
          rcases Nat.lt_succ_iff_lt_or_eq.mp h.2.2 with h4 | h4
          · exact h2 ⟨h.1, h.2.1, h4⟩
          · exact h1 ⟨h.1, h.2.1, h4⟩
        rw [if_neg h1, if_neg h2, if_neg h3]

/-- The two inner loops of `canonicalized` write one channel. -/
theorem write_plane {α : Type} (g : Nat → Nat → α) (c nx : Nat) (out : Tensor3 α) (ny : Nat) :
    (List.range ny).foldl
        (fun o y => (List.range nx).foldl (fun o x => o.write c y x (g x y)) o) out =
      { out with
        data := fun c1 y1 x1 =>
          if c1 = c ∧ y1 < ny ∧ x1 < nx then g x1 y1 else out.data c1 y1 x1 } := by
  induction ny with
  | zero => simp
  | succ n ih =>
    rw [List.range_succ, List.foldl_append, ih]
    simp only [List.foldl_cons, List.foldl_nil]
    rw [write_row (fun x => g x n) c n _ nx]
    congr 1
    funext c1 y1 x1
    dsimp only
    by_cases h1 : c1 = c ∧ y1 = n ∧ x1 < nx
    · obtain ⟨rfl, rfl, hx⟩ := h1; simp [hx]
    · by_cases h2 : c1 = c ∧ y1 < n ∧ x1 < nx
      · have h3 : c1 = c ∧ y1 < n + 1 ∧ x1 < nx := ⟨h2.1, by omega, h2.2.2⟩
        rw [if_neg h1, if_pos h2, if_pos h3]
      · have h3 : ¬ (c1 = c ∧ y1 < n + 1 ∧ x1 < nx) := by
          intro h
          rcases Nat.lt_succ_iff_lt_or_eq.mp h.2.1 with h4 | h4
          · exact h2 ⟨h.1, h4, h.2.2⟩
          · exact h1 ⟨h.1, h4, h.2.2⟩
        rw [if_neg h1, if_neg h2, if_neg h3]

/-- The result of `canonicalized`, entry by entry. -/
theorem canonicalized_eq {Board Move Key : Type} (B : BoardAPI Board Move Key)
    (s : BlokusDuoGS Board) :
    BlokusDuoGS.canonicalized B s =
      { d0 := 2, d1 := B.YSIZE, d2 := B.XSIZE
        data := fun c y x =>
          if c = (if B.is_violet_turn s.board_ then 1 else 0) ∧ y < B.YSIZE ∧ x < B.XSIZE then
            some (if B.at_ s.board_ x y &&& B.ORANGE_TILE ≠ 0 then 1 else 0)
          else if c = (if B.is_violet_turn s.board_ then 0 else 1) ∧ y < B.YSIZE ∧
              x < B.XSIZE then
            some (if B.at_ s.board_ x y &&& B.VIOLET_TILE ≠ 0 then 1 else 0)
          else none } := by
  have h2 : List.range 2 = [0, 1] := rfl
  unfold BlokusDuoGS.canonicalized
  simp only [h2, List.foldl_cons, List.foldl_nil, Nat.one_ne_zero, if_true, if_false,
    Nat.sub_self, Nat.sub_zero]
  rw [write_plane (fun x y => some (if B.at_ s.board_ x y &&& B.VIOLET_TILE ≠ 0 then 1 else 0))]
  rw [write_plane (fun x y => some (if B.at_ s.board_ x y &&& B.ORANGE_TILE ≠ 0 then 1 else 0))]

/-- C5. For every state, `canonicalized()` has shape `(2, YSIZE, XSIZE)`; every
entry inside the shape has been written and is 0 or 1; entry `(0, y, x)` is 1 iff
the cell `(x, y)` holds a tile of the colour whose turn it is and entry
`(1, y, x)` is 1 iff it holds a tile of the other colour; and a state with the
same cells but the other side to move has the two channels exchanged. -/
theorem canonicalized_from_side_to_move {Board Move Key : Type}
    (B : BoardAPI Board Move Key) (s : BlokusDuoGS Board) :
    ((BlokusDuoGS.canonicalized B s).d0 = 2 ∧
      (BlokusDuoGS.canonicalized B s).d1 = B.YSIZE ∧
      (BlokusDuoGS.canonicalized B s).d2 = B.XSIZE) ∧
    (∀ c y x, c < 2 → y < B.YSIZE → x < B.XSIZE →
      (BlokusDuoGS.canonicalized B s).data c y x = some 0 ∨
      (BlokusDuoGS.canonicalized B s).data c y x = some 1) ∧
    (∀ y x, y < B.YSIZE → x < B.XSIZE →
      ((BlokusDuoGS.canonicalized B s).data 0 y x = some 1 ↔
        holds B s x y (tile_to_move B s)) ∧
      ((BlokusDuoGS.canonicalized B s).data 1 y x = some 1 ↔
        holds B s x y (tile_of_other B s))) ∧
    (∀ s2 : BlokusDuoGS Board,
      B.is_violet_turn s2.board_ = !B.is_violet_turn s.board_ →
      (∀ x y, B.at_ s2.board_ x y = B.at_ s.board_ x y) →
      ∀ y x, y < B.YSIZE → x < B.XSIZE →
        (BlokusDuoGS.canonicalized B s2).data 0 y x =
          (BlokusDuoGS.canonicalized B s).data 1 y x ∧
        (BlokusDuoGS.canonicalized B s2).data 1 y x =
          (BlokusDuoGS.canonicalized B s).data 0 y x) := by
  refine ⟨?_, ?_, ?_, ?_⟩
  · rw [canonicalized_eq]; exact ⟨rfl, rfl, rfl⟩
  · intro c y x hc hy hx
    rw [canonicalized_eq]
    have hc01 : c = 0 ∨ c = 1 := by omega
    rcases hc01 with rfl | rfl <;> cases B.is_violet_turn s.board_ <;>
      simp [hy, hx] <;> exact Decidable.em _
  · intro y x hy hx
    rw [canonicalized_eq]
    unfold holds tile_to_move tile_of_other
    cases B.is_violet_turn s.board_ <;> simp [hy, hx]
  · intro s2 hturn hcells y x hy hx
    rw [canonicalized_eq, canonicalized_eq, hturn]
    cases B.is_violet_turn s.board_ <;> simp [hy, hx, hcells]

/-- C5, on the toy position `[1, 0, 2, 0]` with violet to move: channel 0 marks
the violet cell `(0, 0)` and channel 1 the orange cell `(0, 1)`. -/
theorem canonicalized_from_side_to_move_witness :
    (BlokusDuoGS.canonicalized toyAPI toyMid).data 0 0 0 = some 1 ∧
    (BlokusDuoGS.canonicalized toyAPI toyMid).data 1 1 0 = some 1 ∧
    (BlokusDuoGS.canonicalized toyAPI toyMid).data 0 1 0 = some 0 :=
  ⟨(((canonicalized_from_side_to_move toyAPI toyMid).2.2.1 0 0 (by decide) (by decide)).1).mpr
      (by decide),
    (((canonicalized_from_side_to_move toyAPI toyMid).2.2.1 1 0 (by decide) (by decide)).2).mpr
      (by decide),
    by
      rcases (canonicalized_from_side_to_move toyAPI toyMid).2.1 0 1 0 (by decide) (by decide)
        (by decide) with h | h
      · exact h
      · exact absurd
          ((((canonicalized_from_side_to_move toyAPI toyMid).2.2.1 1 0 (by decide)
            (by decide)).1).mp h) (by decide)⟩

/-! ## The relabelled policy vector -/

section RelabelFacts

variable {Board Move Key : Type} [DecidableEq Move]

theorem pi_fold_cons_in {α : Type} (B : BoardAPI Board Move Key) (r : Nat) (base_pi : List α)
    (i : Nat) (rest : List Nat) (pi : List α) (h1 : i < B.all_possible_moves.length)
    (h2 : i < base_pi.length) :
    pi_fold B r base_pi (i :: rest) pi =
      pi_fold B r base_pi rest (pi.set (target B r i) base_pi[i]) := by
  simp only [pi_fold, List.foldl_cons, target, List.getElem?_eq_getElem h1,
    List.getElem?_eq_getElem h2]

/-- An entry that is the target of no index of the list keeps its value. -/
theorem pi_fold_miss {α : Type} (B : BoardAPI Board Move Key) (r : Nat) (base_pi : List α)
    (k : Nat) (idxs : List Nat) :
    ∀ pi : List α, (∀ i ∈ idxs, i < B.all_possible_moves.length ∧ i < base_pi.length) →
      (∀ i ∈ idxs, target B r i ≠ k) → (pi_fold B r base_pi idxs pi)[k]? = pi[k]? := by
  induction idxs with
  | nil => intro pi _ _; rfl
  | cons i rest ih =>
    intro pi hin hk
    obtain ⟨h1, h2⟩ := hin i (List.mem_cons_self i rest)
    rw [pi_fold_cons_in B r base_pi i rest pi h1 h2,
      ih _ (fun j hj => hin j (List.mem_cons_of_mem i hj))
        (fun j hj => hk j (List.mem_cons_of_mem i hj))]
    exact List.getElem?_set_ne (hk i (List.mem_cons_self i rest))

/-- With pairwise different targets, the entry written for index `i` still holds
`base_pi[i]` at the end of the loop. -/
theorem pi_fold_hit {α : Type} (B : BoardAPI Board Move Key) (r : Nat) (base_pi : List α)
    (i : Nat) (idxs : List Nat) :
    ∀ pi : List α, (∀ j ∈ idxs, j < B.all_possible_moves.length ∧ j < base_pi.length) →
      (idxs.map (target B r)).Nodup → i ∈ idxs → target B r i < pi.length →
      (pi_fold B r base_pi idxs pi)[target B r i]? = base_pi[i]? := by
  induction idxs with
  | nil => intro pi _ _ hi _; simp at hi
  | cons j rest ih =>
    intro pi hin hnd hi hlt
    obtain ⟨h1, h2⟩ := hin j (List.mem_cons_self j rest)
    rw [List.map_cons, List.nodup_cons] at hnd
    rw [pi_fold_cons_in B r base_pi j rest pi h1 h2]
    by_cases hij : i ∈ rest
    · exact ih _ (fun k hk => hin k (List.mem_cons_of_mem j hk)) hnd.2 hij
        (by rw [List.length_set]; exact hlt)
    · have hji : i = j := by
        rcases List.mem_cons.mp hi with h | h
        · exact h
        · exact absurd h hij
      subst hji
      rw [pi_fold_miss B r base_pi (target B r i) rest _
        (fun k hk => hin k (List.mem_cons_of_mem i hk))
        (fun k hk hc => hnd.1 (List.mem_map.mpr ⟨k, hk, hc⟩))]
      rw [List.getElem?_set_self hlt, List.getElem?_eq_getElem h2]

theorem relabel_length {α : Type} (B : BoardAPI Board Move Key) (fresh : α)
    (base_pi : List α) (r : Nat) :
    (relabel B fresh base_pi r).length = B.all_possible_moves.length := by
  rw [relabel, pi_fold_length, List.length_replicate]

theorem target_lt (B : BoardAPI Board Move Key) (r i : Nat)
    (hi : i < B.all_possible_moves.length) : target B r i < B.all_possible_moves.length := by
  have h0 : B.all_possible_moves ≠ [] := by
    intro h; rw [h] at hi; simp at hi
  simp only [target, List.getElem?_eq_getElem hi]
  exact index_of_lt B _ h0

/-- If the transform maps the duplicate-free table injectively into itself, no
two table indices are written to the same entry. -/
theorem target_inj (B : BoardAPI Board Move Key) (r : Nat)
    (hnd : B.all_possible_moves.Nodup)
    (hcl : ∀ m ∈ B.all_possible_moves, B.rotate_move m r ∈ B.all_possible_moves)
    (hinj : ∀ m1 ∈ B.all_possible_moves, ∀ m2 ∈ B.all_possible_moves,
      B.rotate_move m1 r = B.rotate_move m2 r → m1 = m2)
    (i j : Nat) (hi : i < B.all_possible_moves.length) (hj : j < B.all_possible_moves.length)
    (h : target B r i = target B r j) : i = j := by
  simp only [target, List.getElem?_eq_getElem hi, List.getElem?_eq_getElem hj] at h
  have hmi := List.getElem_mem hi
  have hmj := List.getElem_mem hj
  obtain ⟨k1, hk1, e1⟩ := List.mem_iff_getElem.mp (hcl _ hmi)
  obtain ⟨k2, hk2, e2⟩ := List.mem_iff_getElem.mp (hcl _ hmj)
  rw [← e1, ← e2, index_of_getElem B hnd k1 hk1, index_of_getElem B hnd k2 hk2] at h
  subst h
  have h3 : B.all_possible_moves[i] = B.all_possible_moves[j] :=
    hinj _ hmi _ hmj (by rw [← e1, ← e2])
  exact hnd.getElem_inj_iff.mp h3

/-- With pairwise different targets, the targets of all table indices are the
table indices in another order. -/
theorem targets_perm (B : BoardAPI Board Move Key) (r : Nat)
    (hinj : ∀ i j, i < B.all_possible_moves.length → j < B.all_possible_moves.length →
      target B r i = target B r j → i = j) :
    ((List.range B.all_possible_moves.length).map (target B r)).Perm
      (List.range B.all_possible_moves.length) := by
  have hnd : ((List.range B.all_possible_moves.length).map (target B r)).Nodup :=
    List.Nodup.map_on
      (fun x hx y hy h => hinj x y (List.mem_range.mp hx) (List.mem_range.mp hy) h)
      (List.nodup_range _)
  have hsub : (List.range B.all_possible_moves.length).map (target B r) ⊆
      List.range B.all_possible_moves.length := by
    intro k hk
    obtain ⟨i, hi, rfl⟩ := List.mem_map.mp hk
    exact List.mem_range.mpr (target_lt B r i (List.mem_range.mp hi))
  exact (List.subperm_of_subset hnd hsub).perm_of_length_le (by simp)

theorem relabel_get {α : Type} (B : BoardAPI Board Move Key) (fresh : α) (base_pi : List α)
    (r : Nat) (hn : base_pi.length = B.all_possible_moves.length)
    (hinj : ∀ i j, i < B.all_possible_moves.length → j < B.all_possible_moves.length →
      target B r i = target B r j → i = j)
    (i : Nat) (hi : i < B.all_possible_moves.length) :
    (relabel B fresh base_pi r)[target B r i]? = base_pi[i]? := by
  unfold relabel
  apply pi_fold_hit
  · intro j hj
    have := List.mem_range.mp hj
    exact ⟨this, by omega⟩
  · exact List.Nodup.map_on
      (fun x hx y hy h => hinj x y (List.mem_range.mp hx) (List.mem_range.mp hy) h)
      (List.nodup_range _)
  · exact List.mem_range.mpr hi
  · rw [List.length_replicate]; exact target_lt B r i hi

omit [DecidableEq Move] in
theorem list_eq_map_range {α : Type} (l : List α) (d : α) :
    l = (List.range l.length).map (fun i => l.getD i d) := by
  apply List.ext_getElem
  · simp
  · intro n h1 h2
    rw [List.getElem_map, List.getElem_range, List.getD_eq_getElem l d h1]

theorem relabel_perm {α : Type} (B : BoardAPI Board Move Key) (fresh : α) (base_pi : List α)
    (r : Nat) (hn : base_pi.length = B.all_possible_moves.length)
    (hinj : ∀ i j, i < B.all_possible_moves.length → j < B.all_possible_moves.length →
      target B r i = target B r j → i = j) :
    (relabel B fresh base_pi r).Perm base_pi := by
  have hlen := relabel_length B fresh base_pi r
  have h1 : base_pi = ((List.range B.all_possible_moves.length).map (target B r)).map
      (fun k => (relabel B fresh base_pi r).getD k fresh) := by
    rw [List.map_map]
    conv_lhs => rw [list_eq_map_range base_pi fresh, hn]
    apply List.map_congr_left
    intro i hi
    have hi1 := List.mem_range.mp hi
    have hg := relabel_get B fresh base_pi r hn hinj i hi1
    simp only [Function.comp, List.getD_eq_getElem?_getD, hg]
  have h2 : relabel B fresh base_pi r = (List.range B.all_possible_moves.length).map
      (fun k => (relabel B fresh base_pi r).getD k fresh) := by
    conv_lhs => rw [list_eq_map_range (relabel B fresh base_pi r) fresh, hlen]
  rw [h2]
  conv_rhs => rw [h1]
  exact ((targets_perm B r hinj).map _).symm

end RelabelFacts

/-! ## `symmetries`: the eight records -/

/-- C6. In every reachable table state, for every training record `base` whose
policy has length `num_moves()`, `symmetries(base)` returns exactly 8 records
(= `num_symmetries()`), the first of which is `base` itself, and every one of the
8 records carries the outcome label `v` of `base`. -/
theorem symmetries_eight_records {Board Move Key α V : Type} [DecidableEq Move]
    (B : BoardAPI Board Move Key) (t : Tables Move) (dflt : PlayHistory α V) (fresh : α)
    (s : BlokusDuoGS Board) (base : PlayHistory α V) (ht : Reachable B t)
    (hn : base.pi.length = (BlokusDuoGS.num_moves B t s).1) :
    ∃ out t1, BlokusDuoGS.symmetries B t dflt fresh s base = some (out, t1) ∧
      out.length = 8 ∧ out.length = BlokusDuoGS.num_symmetries s ∧
      out[0]? = some base ∧
      ∀ h ∈ out, h.v = base.v := by
  have hinv := reachable_inv B t ht
  obtain ⟨e1, -, -, -, -⟩ := num_possible_moves_spec B t hinv
  have hn1 : base.pi.length = B.all_possible_moves.length := by
    rw [hn]; exact e1
  obtain ⟨t1, e, -⟩ := symmetries_eq B t dflt fresh s base hinv hn1
  refine ⟨_, t1, e, rfl, rfl, rfl, ?_⟩
  intro h hh
  simp only [List.mem_cons, List.mem_singleton, List.not_mem_nil, or_false] at hh
  rcases hh with rfl | rfl | rfl | rfl | rfl | rfl | rfl | rfl <;> rfl

/-- C6, on the toy board: a record with a policy of length 4. -/
theorem symmetries_eight_records_witness :
    (Reachable toyAPI (Tables.initial : Tables Nat) ∧
      toyRecord.pi.length = (BlokusDuoGS.num_moves toyAPI Tables.initial toyMid).1) ∧
    ∃ out t1, BlokusDuoGS.symmetries toyAPI Tables.initial toyDefault 0 toyMid toyRecord =
        some (out, t1) ∧
      out.length = 8 ∧ out.length = BlokusDuoGS.num_symmetries toyMid ∧
      out[0]? = some toyRecord ∧
      ∀ h ∈ out, h.v = toyRecord.v :=
  ⟨⟨Reachable.initial, rfl⟩,
    symmetries_eight_records toyAPI Tables.initial toyDefault 0 toyMid toyRecord
      Reachable.initial rfl⟩

/-- The record number `r` of the list returned by `symmetries`. -/
theorem syms_get {Board Move Key α V : Type} [DecidableEq Move] (B : BoardAPI Board Move Key)
    (fresh : α) (base : PlayHistory α V) (r : Nat) (hr : r < 8) :
    [base, sym_record B fresh base 1, sym_record B fresh base 2, sym_record B fresh base 3,
      sym_record B fresh base 4, sym_record B fresh base 5, sym_record B fresh base 6,
      sym_record B fresh base 7][r]? =
      some (if r = 0 then base else sym_record B fresh base r) := by
  interval_cases r <;> rfl

/-- C7. In every reachable table state, for every record `base` (with a policy
of `num_moves()` entries) and every `r` from 1 to 7, provided the table has no
duplicates and `rotate_move(., r)` maps it injectively into itself (a bijection
of the table): the policy `pi_r` of `symmetries(base)[r]` satisfies
`pi_r[index_of(rotate_move(move_i, r))] = base.pi[i]` for every action index
`i`, every entry of `pi_r` is written exactly once, and `pi_r` has the length,
the multiset of values and the sum of `base.pi`. -/
theorem symmetries_policy_relabelled {Board Move Key α V : Type} [DecidableEq Move]
    [AddCommMonoid α] (B : BoardAPI Board Move Key) (t : Tables Move) (dflt : PlayHistory α V)
    (fresh : α) (s : BlokusDuoGS Board) (base : PlayHistory α V) (r : Nat)
    (ht : Reachable B t) (hn : base.pi.length = (BlokusDuoGS.num_moves B t s).1)
    (hr1 : 1 ≤ r) (hr7 : r ≤ 7) (hnd : B.all_possible_moves.Nodup)
    (hcl : ∀ m ∈ B.all_possible_moves, B.rotate_move m r ∈ B.all_possible_moves)
    (hinj : ∀ m1 ∈ B.all_possible_moves, ∀ m2 ∈ B.all_possible_moves,
      B.rotate_move m1 r = B.rotate_move m2 r → m1 = m2) :
    ∃ out t1 h, BlokusDuoGS.symmetries B t dflt fresh s base = some (out, t1) ∧
      out[r]? = some h ∧
      (∀ (i : Nat) (mv : Move) (x : α), B.all_possible_moves[i]? = some mv →
        base.pi[i]? = some x →
        h.pi[index_of B (B.rotate_move mv r)]? = some x) ∧
      (∀ k, k < h.pi.length →
        ((List.range base.pi.length).map (target B r)).count k = 1) ∧
      h.pi.length = base.pi.length ∧
      h.pi.Perm base.pi ∧
      h.pi.sum = base.pi.sum := by
  have hinv := reachable_inv B t ht
  obtain ⟨e1, -, -, -, -⟩ := num_possible_moves_spec B t hinv
  have hn1 : base.pi.length = B.all_possible_moves.length := by
    rw [hn]; exact e1
  obtain ⟨t1, e, -⟩ := symmetries_eq B t dflt fresh s base hinv hn1
  have hr0 : r ≠ 0 := by omega
  have hget := syms_get B fresh base r (by omega)
  rw [if_neg hr0] at hget
  have htinj := target_inj B r hnd hcl hinj
  have hperm := relabel_perm B fresh base.pi r hn1 htinj
  refine ⟨_, t1, _, e, hget, ?_, ?_, ?_, hperm, hperm.sum_eq⟩
  · intro i mv x hmv hx
    obtain ⟨hi, rfl⟩ := List.getElem?_eq_some_iff.mp hmv
    have hg := relabel_get B fresh base.pi r hn1 htinj i hi
    simp only [target, List.getElem?_eq_getElem hi] at hg
    rw [← hx]; exact hg
  · intro k hk
    have hk1 : k < B.all_possible_moves.length := by
      simpa [sym_record, relabel_length] using hk
    rw [hn1, (targets_perm B r htinj).count_eq k]
    exact List.count_eq_one_of_mem (List.nodup_range _) (List.mem_range.mpr hk1)
  · simp only [sym_record, relabel_length, hn1]

/-- C7, on the toy board with transform 2 (a quarter turn): the policy
`[10, 11, 12, 13]` becomes `[12, 10, 13, 11]`. -/
theorem symmetries_policy_relabelled_witness :
    (Reachable toyAPI (Tables.initial : Tables Nat) ∧
      toyRecord.pi.length = (BlokusDuoGS.num_moves toyAPI Tables.initial toyMid).1 ∧
      toyAPI.all_possible_moves.Nodup ∧
      (∀ m ∈ toyAPI.all_possible_moves, toyAPI.rotate_move m 2 ∈ toyAPI.all_possible_moves) ∧
      (∀ m1 ∈ toyAPI.all_possible_moves, ∀ m2 ∈ toyAPI.all_possible_moves,
        toyAPI.rotate_move m1 2 = toyAPI.rotate_move m2 2 → m1 = m2)) ∧
    ∃ out t1 h, BlokusDuoGS.symmetries toyAPI Tables.initial toyDefault 0 toyMid toyRecord =
        some (out, t1) ∧
      out[2]? = some h ∧
      (∀ (i mv : Nat) (x : Int), toyAPI.all_possible_moves[i]? = some mv →
        toyRecord.pi[i]? = some x →
        h.pi[index_of toyAPI (toyAPI.rotate_move mv 2)]? = some x) ∧
      (∀ k, k < h.pi.length →
        ((List.range toyRecord.pi.length).map (target toyAPI 2)).count k = 1) ∧
      h.pi.length = toyRecord.pi.length ∧
      h.pi.Perm toyRecord.pi ∧
      h.pi.sum = toyRecord.pi.sum :=
  ⟨⟨Reachable.initial, rfl, by decide, by decide, by decide⟩,
    symmetries_policy_relabelled toyAPI Tables.initial toyDefault 0 toyMid toyRecord 2
      Reachable.initial rfl (by decide) (by decide) (by decide) (by decide) (by decide)⟩

/-! ## The symmetry round trip -/

/-- On a square tensor, transform `r` followed by `inverse_sym r` gives back
every entry. -/
theorem canon_sym_round_trip {α : Type} (c : Tensor3 α) (hsq : c.d1 = c.d2) (r : Nat)
    (hr : r < 8) :
    ((canon_sym (canon_sym c r) (inverse_sym r)).d0 = c.d0 ∧
      (canon_sym (canon_sym c r) (inverse_sym r)).d1 = c.d1 ∧
      (canon_sym (canon_sym c r) (inverse_sym r)).d2 = c.d2) ∧
    ∀ ch a b, a < c.d1 → b < c.d2 →
      (canon_sym (canon_sym c r) (inverse_sym r)).data ch a b = c.data ch a b := by
  have hrev : ∀ x, x < c.d2 → c.d2 - 1 - (c.d2 - 1 - x) = x := by
    intro x hx; omega
  interval_cases r <;>
    simp only [canon_sym, inverse_sym, Tensor3.shuffle, Tensor3.reverse, hsq, true_and,
      and_self] <;>
    intro ch a b ha hb <;>
    first
      | rfl
      | simp only [hrev a (hsq ▸ ha), hrev b hb]

/-- If `rotate_move(., r1)` undoes `rotate_move(., r)` on a duplicate-free table
that `rotate_move(., r)` maps into itself, relabelling by `r` and then by `r1`
gives back the policy vector. -/
theorem relabel_round_trip {Board Move Key α : Type} [DecidableEq Move]
    (B : BoardAPI Board Move Key) (fresh : α) (base_pi : List α) (r r1 : Nat)
    (hn : base_pi.length = B.all_possible_moves.length)
    (hnd : B.all_possible_moves.Nodup)
    (hcl : ∀ m ∈ B.all_possible_moves, B.rotate_move m r ∈ B.all_possible_moves)
    (hundo : ∀ m ∈ B.all_possible_moves, B.rotate_move (B.rotate_move m r) r1 = m) :
    relabel B fresh (relabel B fresh base_pi r) r1 = base_pi := by
  have hinj : ∀ m1 ∈ B.all_possible_moves, ∀ m2 ∈ B.all_possible_moves,
      B.rotate_move m1 r = B.rotate_move m2 r → m1 = m2 := by
    intro m1 h1 m2 h2 h
    rw [← hundo m1 h1, ← hundo m2 h2, h]
  have hs := target_inj B r hnd hcl hinj
  have hback : ∀ i, i < B.all_possible_moves.length → target B r1 (target B r i) = i := by
    intro i hi
    have hmi := List.getElem_mem hi
    obtain ⟨k, hk, ek⟩ := List.mem_iff_getElem.mp (hcl _ hmi)
    have h1 : target B r i = k := by
      simp only [target, List.getElem?_eq_getElem hi]
      rw [← ek]; exact index_of_getElem B hnd k hk
    rw [h1]
    simp only [target, List.getElem?_eq_getElem hk]
    rw [ek, hundo _ hmi]
    exact index_of_getElem B hnd i hi
  have ht : ∀ j j1, j < B.all_possible_moves.length → j1 < B.all_possible_moves.length →
      target B r1 j = target B r1 j1 → j = j1 := by
    intro j j1 hj hj1 h
    have hp := targets_perm B r hs
    obtain ⟨i, hi, rfl⟩ := List.mem_map.mp ((hp.mem_iff).mpr (List.mem_range.mpr hj))
    obtain ⟨i1, hi1, rfl⟩ := List.mem_map.mp ((hp.mem_iff).mpr (List.mem_range.mpr hj1))
    rw [hback i (List.mem_range.mp hi), hback i1 (List.mem_range.mp hi1)] at h
    rw [h]
  have hlen := relabel_length B fresh base_pi r
  apply List.ext_getElem?
  intro k
  by_cases hk : k < B.all_possible_moves.length
  · have h2 := relabel_get B fresh (relabel B fresh base_pi r) r1 hlen ht (target B r k)
      (target_lt B r k hk)
    rw [hback k hk] at h2
    rw [h2]
    exact relabel_get B fresh base_pi r hn hs k hk
  · rw [List.getElem?_eq_none (by rw [relabel_length]; omega),
      List.getElem?_eq_none (by omega)]

/-- C8. In every reachable table state, for every record `base` (with a policy of
`num_moves()` entries) whose tensor is square and every `r` below 8 there is an
`r1` below 8, namely `inverse_sym r`, such that `symmetries(symmetries(base)[r])[r1]`
has the shape, every tensor entry and the outcome of `base`, and, provided the
table has no duplicates, `rotate_move(., r)` maps it into itself and
`rotate_move(., r1)` undoes `rotate_move(., r)` on it, the policy of `base`. -/
theorem symmetries_round_trip {Board Move Key α V : Type} [DecidableEq Move]
    (B : BoardAPI Board Move Key) (t : Tables Move) (dflt : PlayHistory α V) (fresh : α)
    (s : BlokusDuoGS Board) (base : PlayHistory α V) (r : Nat) (ht : Reachable B t)
    (hn : base.pi.length = (BlokusDuoGS.num_moves B t s).1)
    (hsq : base.canonical.d1 = base.canonical.d2) (hr : r < 8) :
    ∃ r1, r1 < 8 ∧ r1 = inverse_sym r ∧
      ∃ out t1 x out2 t2 y,
        BlokusDuoGS.symmetries B t dflt fresh s base = some (out, t1) ∧ out[r]? = some x ∧
        BlokusDuoGS.symmetries B t1 dflt fresh s x = some (out2, t2) ∧ out2[r1]? = some y ∧
        (y.canonical.d0 = base.canonical.d0 ∧ y.canonical.d1 = base.canonical.d1 ∧
          y.canonical.d2 = base.canonical.d2) ∧
        (∀ c a b, c < base.canonical.d0 → a < base.canonical.d1 → b < base.canonical.d2 →
          y.canonical.data c a b = base.canonical.data c a b) ∧
        y.v = base.v ∧
        (B.all_possible_moves.Nodup →
          (∀ m ∈ B.all_possible_moves, B.rotate_move m r ∈ B.all_possible_moves) →
          (∀ m ∈ B.all_possible_moves, B.rotate_move (B.rotate_move m r) r1 = m) →
          y.pi = base.pi) := by
  have hinv := reachable_inv B t ht
  obtain ⟨e1, -, -, -, -⟩ := num_possible_moves_spec B t hinv
  have hn1 : base.pi.length = B.all_possible_moves.length := by
    rw [hn]; exact e1
  obtain ⟨t1, e, hinv1⟩ := symmetries_eq B t dflt fresh s base hinv hn1
  have hr1 : inverse_sym r < 8 := by
    interval_cases r <;> simp [inverse_sym]
  have hzero : inverse_sym r = 0 ↔ r = 0 := by
    interval_cases r <;> simp [inverse_sym]
  have hrt := canon_sym_round_trip base.canonical hsq r hr
  by_cases h0 : r = 0
  · -- the identity: the record is `base` both times
    subst h0
    obtain ⟨t2, e2, -⟩ := symmetries_eq B t1 dflt fresh s base hinv1 hn1
    exact ⟨0, by omega, rfl, _, t1, base, _, t2, base, e, rfl, e2, rfl,
      ⟨rfl, rfl, rfl⟩, fun _ _ _ _ _ _ => rfl, rfl, fun _ _ _ => rfl⟩
  · have hx := syms_get B fresh base r hr
    rw [if_neg h0] at hx
    have hxlen : (sym_record B fresh base r).pi.length = B.all_possible_moves.length := by
      simp only [sym_record, relabel_length]
    obtain ⟨t2, e2, -⟩ := symmetries_eq B t1 dflt fresh s (sym_record B fresh base r) hinv1
      hxlen
    have hy := syms_get B fresh (sym_record B fresh base r) (inverse_sym r) hr1
    rw [if_neg (fun h => h0 (hzero.mp h))] at hy
    refine ⟨inverse_sym r, hr1, rfl, _, t1, _, _, t2, _, e, hx, e2, hy, hrt.1,
      fun c a b _ ha hb => hrt.2 c a b ha hb, rfl, ?_⟩
    intro hnd hcl hundo
    exact relabel_round_trip B fresh base.pi r (inverse_sym r) hn1 hnd hcl hundo

/-- C8, on the toy board with the quarter turn 2, undone by transform 6. -/
theorem symmetries_round_trip_witness :
    (Reachable toyAPI (Tables.initial : Tables Nat) ∧
      toyRecord.pi.length = (BlokusDuoGS.num_moves toyAPI Tables.initial toyMid).1 ∧
      toyRecord.canonical.d1 = toyRecord.canonical.d2 ∧
      toyAPI.all_possible_moves.Nodup ∧
      (∀ m ∈ toyAPI.all_possible_moves, toyAPI.rotate_move m 2 ∈ toyAPI.all_possible_moves) ∧
      (∀ m ∈ toyAPI.all_possible_moves,
        toyAPI.rotate_move (toyAPI.rotate_move m 2) 6 = m)) ∧
    ∃ out t1 x out2 t2 y,
      BlokusDuoGS.symmetries toyAPI Tables.initial toyDefault 0 toyMid toyRecord =
        some (out, t1) ∧ out[2]? = some x ∧
      BlokusDuoGS.symmetries toyAPI t1 toyDefault 0 toyMid x = some (out2, t2) ∧
      out2[6]? = some y ∧
      (∀ c a b, c < 2 → a < 2 → b < 2 →
        y.canonical.data c a b = toyRecord.canonical.data c a b) ∧
      y.v = toyRecord.v ∧ y.pi = toyRecord.pi := by
  refine ⟨⟨Reachable.initial, rfl, rfl, by decide, by decide, by decide⟩, ?_⟩
  obtain ⟨r1, -, hr1, out, t1, x, out2, t2, y, h1, h2, h3, h4, -, h5, h6, h7⟩ :=
    symmetries_round_trip toyAPI Tables.initial toyDefault 0 toyMid toyRecord 2
      Reachable.initial rfl rfl (by decide)
  have e6 : r1 = 6 := hr1
  subst e6
  exact ⟨out, t1, x, out2, t2, y, h1, h2, h3, h4, h5, h6,
    h7 (by decide) (by decide) (by decide)⟩

/-! ## Equality, hash and the size of the action space -/

/-- C9. `a == b` holds exactly when the two board keys are equal, so `==` is
reflexive, symmetric and transitive; a `BlokusDuoGS` never equals a game state of
another concrete class; and `a == b` implies that `hash` hands the same data to
the hasher, so equal states have equal hashes. -/
theorem operator_eq_structural_and_hash {Board Move Key : Type} (Other H : Type)
    [DecidableEq Key] (B : BoardAPI Board Move Key) (a b c : BlokusDuoGS Board) :
    (BlokusDuoGS.operator_eq B a (GameState.blokusduo b : GameState Board Other) = true ↔
      B.key a.board_ = B.key b.board_) ∧
    BlokusDuoGS.operator_eq B a (GameState.blokusduo a : GameState Board Other) = true ∧
    (BlokusDuoGS.operator_eq B a (GameState.blokusduo b : GameState Board Other) = true →
      BlokusDuoGS.operator_eq B b (GameState.blokusduo a : GameState Board Other) = true) ∧
    (BlokusDuoGS.operator_eq B a (GameState.blokusduo b : GameState Board Other) = true →
      BlokusDuoGS.operator_eq B b (GameState.blokusduo c : GameState Board Other) = true →
      BlokusDuoGS.operator_eq B a (GameState.blokusduo c : GameState Board Other) = true) ∧
    (∀ o : Other,
      BlokusDuoGS.operator_eq B a (GameState.other o : GameState Board Other) = false) ∧
    (BlokusDuoGS.operator_eq B a (GameState.blokusduo b : GameState Board Other) = true →
      B.string_view (B.key a.board_) = B.string_view (B.key b.board_) ∧
      ∀ (combine : H → String → H) (h : H),
        BlokusDuoGS.hash combine B a h = BlokusDuoGS.hash combine B b h) := by
  have hiff : ∀ x y : BlokusDuoGS Board,
      BlokusDuoGS.operator_eq B x (GameState.blokusduo y : GameState Board Other) = true ↔
        B.key x.board_ = B.key y.board_ := by
    intro x y
    simp only [BlokusDuoGS.operator_eq, decide_eq_true_eq]
  refine ⟨hiff a b, (hiff a a).mpr rfl, fun h => (hiff b a).mpr ((hiff a b).mp h).symm,
    fun h1 h2 => (hiff a c).mpr (((hiff a b).mp h1).trans ((hiff b c).mp h2)),
    fun _ => rfl, ?_⟩
  intro h
  have hk := (hiff a b).mp h
  refine ⟨by rw [hk], fun combine h0 => ?_⟩
  simp only [BlokusDuoGS.hash, hk]

/-- C9, on the toy board: a state equals itself and differs from the start
position, whose key is different. -/
theorem operator_eq_structural_and_hash_witness :
    BlokusDuoGS.operator_eq toyAPI toyMid (GameState.blokusduo toyMid : GameState ToyBoard Unit)
      = true ∧
    BlokusDuoGS.operator_eq toyAPI toyMid
      (GameState.blokusduo toyStart : GameState ToyBoard Unit) = false :=
  ⟨(operator_eq_structural_and_hash Unit (List String) toyAPI toyMid toyMid toyMid).2.1,
    Bool.eq_false_iff.mpr (fun h =>
      absurd ((operator_eq_structural_and_hash Unit (List String) toyAPI toyMid toyStart
        toyMid).1.mp h) (by decide))⟩

/-- C10. In every reachable table state `num_moves()` returns the number of
entries of `Board::all_possible_moves()`, the same as `num_possible_moves()`,
for every game state (so also before and after any `play_move`) and again on a
later call; and `valid_moves()`, which returns whenever an empty enumeration
comes with no playable move, returns a vector of that length. -/
theorem num_moves_constant {Board Move Key : Type} [DecidableEq Move]
    (B : BoardAPI Board Move Key) (t : Tables Move) (s s1 : BlokusDuoGS Board)
    (ht : Reachable B t) :
    (BlokusDuoGS.num_moves B t s).1 = B.all_possible_moves.length ∧
    (num_possible_moves B t).1 = B.all_possible_moves.length ∧
    (BlokusDuoGS.num_moves B t s1).1 = (BlokusDuoGS.num_moves B t s).1 ∧
    (BlokusDuoGS.num_moves B (BlokusDuoGS.num_moves B t s).2 s1).1 =
      (BlokusDuoGS.num_moves B t s).1 ∧
    (∀ a s2, BlokusDuoGS.play_move B t s a = Except.ok s2 →
      (BlokusDuoGS.num_moves B t s2).1 = (BlokusDuoGS.num_moves B t s).1) ∧
    (∀ v t1, BlokusDuoGS.valid_moves B t s = some (v, t1) →
      v.length = (BlokusDuoGS.num_moves B t s).1) ∧
    ((B.all_possible_moves = [] → B.valid_moves s.board_ = []) →
      ∃ v t1, BlokusDuoGS.valid_moves B t s = some (v, t1) ∧
        v.length = (BlokusDuoGS.num_moves B t s).1) := by
  have hinv := reachable_inv B t ht
  obtain ⟨e1, -, -, -, hinv1⟩ := num_possible_moves_spec B t hinv
  obtain ⟨e2, -, -, -, -⟩ := num_possible_moves_spec B _ hinv1
  have hlen := foldl_set_one_length (index_of B) (B.valid_moves s.board_)
    (List.replicate B.all_possible_moves.length 0)
  rw [List.length_replicate] at hlen
  have hret : (B.all_possible_moves = [] → B.valid_moves s.board_ = []) →
      ∃ v t1, BlokusDuoGS.valid_moves B t s = some (v, t1) ∧
        v.length = (BlokusDuoGS.num_moves B t s).1 := by
    intro hv
    obtain ⟨t1, e, -, -⟩ := valid_moves_eq B t s hinv hv
    exact ⟨_, t1, e, by rw [hlen]; exact e1.symm⟩
  refine ⟨e1, e1, rfl, ?_, fun _ _ _ => rfl, ?_, hret⟩
  · simp only [BlokusDuoGS.num_moves]; rw [e2, e1]
  · intro v t1 h
    by_cases hv : B.all_possible_moves = [] → B.valid_moves s.board_ = []
    · obtain ⟨v1, t2, e, hl⟩ := hret hv
      rw [e] at h
      simp only [Option.some.injEq, Prod.mk.injEq] at h
      rw [← h.1]; exact hl
    · exfalso
      have h0 : B.all_possible_moves = [] := by
        by_contra hc; exact hv (fun h1 => absurd h1 hc)
      obtain ⟨e3, e4, -, -, -⟩ := num_possible_moves_spec B t hinv
      simp only [BlokusDuoGS.valid_moves, BlokusDuoGS.num_moves, e3, e4, h0, List.length_nil,
        List.replicate] at h
      cases hl : valid_moves_loop (B.valid_moves s.board_) []
          (num_possible_moves B t).2.move_to_index with
      | none => rw [hl] at h; simp at h
      | some p =>
        obtain ⟨v1, mp1⟩ := p
        exact hv (fun _ => (valid_moves_loop_nil_valids _ _ _ _ hl).1)

/-- C10, on the toy board: 4 moves, on the first call and after the tables exist. -/
theorem num_moves_constant_witness :
    (BlokusDuoGS.num_moves toyAPI Tables.initial toyStart).1 = 4 ∧
    (BlokusDuoGS.num_moves toyAPI toyTables toyMid).1 = 4 ∧
    ∃ v t1, BlokusDuoGS.valid_moves toyAPI toyTables toyMid = some (v, t1) ∧
      v.length = (BlokusDuoGS.num_moves toyAPI toyTables toyMid).1 :=
  ⟨(num_moves_constant toyAPI Tables.initial toyStart toyStart Reachable.initial).1,
    (num_moves_constant toyAPI toyTables toyMid toyMid
      (Reachable.num_moves Reachable.initial)).1,
    (num_moves_constant toyAPI toyTables toyMid toyMid
      (Reachable.num_moves Reachable.initial)).2.2.2.2.2.2 (by decide)⟩

/-! ## The eight tensors, guarded moves and the lazily built tables -/

/-- The tensor of record `r`, entry by entry, on a square tensor. -/
theorem canon_sym_index {α : Type} (c : Tensor3 α) (N : Nat) (h1 : c.d1 = N) (h2 : c.d2 = N)
    (r : Nat) (hr : r < 8) :
    ((canon_sym c r).d0 = c.d0 ∧ (canon_sym c r).d1 = N ∧ (canon_sym c r).d2 = N) ∧
    ∀ ch a b, a < N → b < N → (canon_sym c r).data ch a b =
      c.data ch (dihedral_index N r a b).1 (dihedral_index N r a b).2 := by
  subst h2
  have hrev : ∀ x, x < c.d2 → c.d2 - 1 - (c.d2 - 1 - x) = x := by
    intro x hx; omega
  interval_cases r <;>
    simp only [canon_sym, dihedral_index, Tensor3.shuffle, Tensor3.reverse, h1, true_and,
      and_self] <;>
    intro ch a b ha hb <;>
    first
      | rfl
      | simp only [hrev a ha, hrev b hb]

/-- For a side of at least 2 the eight index maps are pairwise different. -/
theorem dihedral_index_distinct (N : Nat) (hN : 2 ≤ N) (r1 r2 : Nat) (h1 : r1 < 8)
    (h2 : r2 < 8) (hne : r1 ≠ r2) :
    ∃ a b, a < N ∧ b < N ∧ dihedral_index N r1 a b ≠ dihedral_index N r2 a b := by
  interval_cases r1 <;> interval_cases r2 <;>
    first
      | exact absurd rfl hne
      | exact ⟨0, 0, by omega, by omega, by
          simp only [dihedral_index, ne_eq, Prod.mk.injEq, not_and]; omega⟩
      | exact ⟨0, 1, by omega, by omega, by
          simp only [dihedral_index, ne_eq, Prod.mk.injEq, not_and]; omega⟩

/-- C16. In every reachable table state, for a record whose tensor is a square of
side `N` (and whose policy has `num_moves()` entries), record `r` of
`symmetries(base)` has the shape of the base tensor and its entry `(c, a, b)` is
the base entry `(c, dihedral_index N r a b)`: `(a, b)`, `(a, N-1-b)`,
`(N-1-b, a)`, `(b, a)`, `(N-1-a, N-1-b)`, `(N-1-a, b)`, `(b, N-1-a)`,
`(N-1-b, N-1-a)` for `r = 0, ..., 7`, with the channel `c` unchanged; for
`N ≥ 2` these eight index maps are pairwise different; and reversing record 1
along the last axis gives the base tensor again. -/
theorem symmetries_tensors_dihedral {Board Move Key α V : Type} [DecidableEq Move]
    (B : BoardAPI Board Move Key) (t : Tables Move) (dflt : PlayHistory α V) (fresh : α)
    (s : BlokusDuoGS Board) (base : PlayHistory α V) (N r : Nat) (ht : Reachable B t)
    (hn : base.pi.length = (BlokusDuoGS.num_moves B t s).1)
    (h1 : base.canonical.d1 = N) (h2 : base.canonical.d2 = N) (hr : r < 8) :
    ∃ out t1 h, BlokusDuoGS.symmetries B t dflt fresh s base = some (out, t1) ∧
      out[r]? = some h ∧
      (h.canonical.d0 = base.canonical.d0 ∧ h.canonical.d1 = N ∧ h.canonical.d2 = N) ∧
      (∀ c a b, a < N → b < N →
        h.canonical.data c a b =
          base.canonical.data c (dihedral_index N r a b).1 (dihedral_index N r a b).2) ∧
      (2 ≤ N → ∀ r1 r2, r1 < 8 → r2 < 8 → r1 ≠ r2 →
        ∃ a b, a < N ∧ b < N ∧ dihedral_index N r1 a b ≠ dihedral_index N r2 a b) ∧
      (∃ g, out[1]? = some g ∧ ∀ c a b, a < N → b < N →
        g.canonical.reverse.data c a b = base.canonical.data c a b) := by
  have hinv := reachable_inv B t ht
  obtain ⟨e1, -, -, -, -⟩ := num_possible_moves_spec B t hinv
  have hn1 : base.pi.length = B.all_possible_moves.length := by
    rw [hn]; exact e1
  obtain ⟨t1, e, -⟩ := symmetries_eq B t dflt fresh s base hinv hn1
  have hget := syms_get B fresh base r hr
  have hcan : (if r = 0 then base else sym_record B fresh base r).canonical =
      canon_sym base.canonical r := by
    by_cases h0 : r = 0
    · subst h0; rfl
    · rw [if_neg h0]; rfl
  have hidx := canon_sym_index base.canonical N h1 h2 r hr
  have hone := canon_sym_index base.canonical N h1 h2 1 (by omega)
  refine ⟨_, t1, _, e, hget, ?_, ?_, ?_, ⟨sym_record B fresh base 1, rfl, ?_⟩⟩
  · rw [hcan]; exact hidx.1
  · intro c a b ha hb
    rw [hcan]; exact hidx.2 c a b ha hb
  · intro hN r1 r2 hr1 hr2 hne
    exact dihedral_index_distinct N hN r1 r2 hr1 hr2 hne
  · intro c a b ha hb
    have hd : (canon_sym base.canonical 1).d2 = N := hone.1.2.2
    have hb1 : N - 1 - b < N := by omega
    have hval := hone.2 c a (N - 1 - b) ha hb1
    have hback : N - 1 - (N - 1 - b) = b := by omega
    simp only [dihedral_index, hback] at hval
    simp only [sym_record, Tensor3.reverse, hd]
    exact hval

/-- C16, on the toy record (side 2) and the quarter turn 2. -/
theorem symmetries_tensors_dihedral_witness :
    (Reachable toyAPI (Tables.initial : Tables Nat) ∧
      toyRecord.pi.length = (BlokusDuoGS.num_moves toyAPI Tables.initial toyMid).1 ∧
      toyRecord.canonical.d1 = 2 ∧ toyRecord.canonical.d2 = 2) ∧
    ∃ out t1 h, BlokusDuoGS.symmetries toyAPI Tables.initial toyDefault 0 toyMid toyRecord =
        some (out, t1) ∧
      out[2]? = some h ∧
      (∀ c a b, a < 2 → b < 2 →
        h.canonical.data c a b =
          toyRecord.canonical.data c (dihedral_index 2 2 a b).1 (dihedral_index 2 2 a b).2) := by
  refine ⟨⟨Reachable.initial, rfl, rfl, rfl⟩, ?_⟩
  obtain ⟨out, t1, h, e1, e2, -, e3, -, -⟩ :=
    symmetries_tensors_dihedral toyAPI Tables.initial toyDefault 0 toyMid toyRecord 2 2
      Reachable.initial rfl rfl rfl (by decide)
  exact ⟨out, t1, h, e1, e2, e3⟩

/-- The mask of `valid_moves`, entry by entry, for a board whose enumeration is
duplicate-free and lists every playable move. -/
theorem valid_moves_entry_one {Board Move Key : Type} [DecidableEq Move]
    (B : BoardAPI Board Move Key) (t : Tables Move) (s : BlokusDuoGS Board)
    (hinv : TablesInv B t) (hnd : B.all_possible_moves.Nodup)
    (hsub : ∀ m ∈ B.valid_moves s.board_, m ∈ B.all_possible_moves) :
    ∃ v t1, BlokusDuoGS.valid_moves B t s = some (v, t1) ∧
      t1.all_possible_moves = B.all_possible_moves ∧
      v.length = B.all_possible_moves.length ∧
      ∀ i (hi : i < B.all_possible_moves.length), v[i]? = some 1 →
        B.all_possible_moves[i] ∈ B.valid_moves s.board_ := by
  obtain ⟨t1, e, -, hall⟩ := valid_moves_eq B t s hinv (fun h0 => by
    cases hv : B.valid_moves s.board_ with
    | nil => rfl
    | cons m ms =>
      have := hsub m (by rw [hv]; exact List.mem_cons_self m ms)
      rw [h0] at this; simp at this)
  have hlen := foldl_set_one_length (index_of B) (B.valid_moves s.board_)
    (List.replicate B.all_possible_moves.length 0)
  rw [List.length_replicate] at hlen
  refine ⟨_, t1, e, hall, hlen, ?_⟩
  intro i hi h1
  by_contra hnot
  rw [foldl_set_one_miss (index_of B) i] at h1
  · simp [List.getElem?_replicate, hi] at h1
  · intro m hm hc
    obtain ⟨j, hj, rfl⟩ := List.mem_iff_getElem.mp (hsub m hm)
    rw [index_of_getElem B hnd j hj] at hc
    subst hc
    exact hnot hm

/-- C17. In every reachable table state and for every game state and index `i`,
provided the board's enumeration is duplicate-free and lists every playable
move, and the board accepts (`is_valid_move`) every move it reports as playable:
`valid_moves()` returns, and if its entry `i` is 1 then `i < num_moves()` and
`play_move(i)`, called next, passes its validity assertion and plays the
table's move `i`. -/
theorem mask_guarded_play_move_passes {Board Move Key : Type} [DecidableEq Move]
    (B : BoardAPI Board Move Key) (t : Tables Move) (s : BlokusDuoGS Board) (i : Nat)
    (ht : Reachable B t) (hnd : B.all_possible_moves.Nodup)
    (hsub : ∀ m ∈ B.valid_moves s.board_, m ∈ B.all_possible_moves)
    (hacc : ∀ m ∈ B.valid_moves s.board_, B.is_valid_move s.board_ m = true) :
    ∃ v t1, BlokusDuoGS.valid_moves B t s = some (v, t1) ∧
      (v[i]? = some 1 →
        i < (BlokusDuoGS.num_moves B t1 s).1 ∧
        ∃ m, t1.all_possible_moves[i]? = some m ∧ B.is_valid_move s.board_ m = true ∧
          BlokusDuoGS.play_move B t1 s i = Except.ok { board_ := B.play_move s.board_ m }) := by
  have hinv := reachable_inv B t ht
  obtain ⟨v, t1, e, hall, hlen, hone⟩ := valid_moves_entry_one B t s hinv hnd hsub
  have hinv1 := valid_moves_inv B t t1 s v hinv e
  obtain ⟨e1, -, -, -, -⟩ := num_possible_moves_spec B t1 hinv1
  refine ⟨v, t1, e, ?_⟩
  intro h1
  have hi : i < B.all_possible_moves.length := by
    rw [← hlen]
    exact (List.getElem?_eq_some_iff.mp h1).1
  have hm := hone i hi h1
  have hget : t1.all_possible_moves[i]? = some B.all_possible_moves[i] := by
    rw [hall]; exact List.getElem?_eq_getElem hi
  refine ⟨by simp only [BlokusDuoGS.num_moves]; rw [e1]; exact hi, _, hget, hacc _ hm, ?_⟩
  simp [BlokusDuoGS.play_move, hget, hacc _ hm]

/-- C17, on the toy position `[1, 0, 2, 0]`: entry 1 of the mask is set and move 1
is played. -/
theorem mask_guarded_play_move_passes_witness :
    (Reachable toyAPI (Tables.initial : Tables Nat) ∧ toyAPI.all_possible_moves.Nodup ∧
      (∀ m ∈ toyAPI.valid_moves toyMid.board_, m ∈ toyAPI.all_possible_moves) ∧
      (∀ m ∈ toyAPI.valid_moves toyMid.board_, toyAPI.is_valid_move toyMid.board_ m = true)) ∧
    ∃ v t1, BlokusDuoGS.valid_moves toyAPI Tables.initial toyMid = some (v, t1) ∧
      (v[1]? = some 1 →
        1 < (BlokusDuoGS.num_moves toyAPI t1 toyMid).1 ∧
        ∃ m, t1.all_possible_moves[1]? = some m ∧ toyAPI.is_valid_move toyMid.board_ m = true ∧
          BlokusDuoGS.play_move toyAPI t1 toyMid 1 =
            Except.ok { board_ := toyAPI.play_move toyMid.board_ m }) :=
  ⟨⟨Reachable.initial, by decide, by decide, by decide⟩,
    mask_guarded_play_move_passes toyAPI Tables.initial toyMid 1 Reachable.initial
      (by decide) (by decide) (by decide)⟩

/-- C18, what the code does: `play_move` as the first operation of a process
reads the still empty enumeration, so for every board, state and index it ends
in the out-of-range read and plays nothing; `num_possible_moves` called first
builds the enumeration, after which the same call plays an accepted move of the
table. -/
theorem play_move_first_reads_unbuilt_table {Board Move Key : Type} [DecidableEq Move]
    (B : BoardAPI Board Move Key) (s : BlokusDuoGS Board) (a : Nat) :
    BlokusDuoGS.play_move B Tables.initial s a = Except.error PlayError.out_of_range ∧
    (num_possible_moves B Tables.initial).2.all_possible_moves = B.all_possible_moves ∧
    (∀ m, B.all_possible_moves[a]? = some m → B.is_valid_move s.board_ m = true →
      BlokusDuoGS.play_move B (num_possible_moves B Tables.initial).2 s a =
        Except.ok { board_ := B.play_move s.board_ m }) := by
  have hall : (num_possible_moves B Tables.initial).2.all_possible_moves =
      B.all_possible_moves :=
    (num_possible_moves_spec B Tables.initial (Or.inl ⟨rfl, rfl⟩)).2.1
  refine ⟨rfl, hall, ?_⟩
  intro m hm hv
  simp [BlokusDuoGS.play_move, hall, hm, hv]

/-- C18, on the toy board: move 0 is playable on the empty board, yet
`play_move(0)` as the first call fails, while after `num_moves()` it is played. -/
theorem play_move_first_reads_unbuilt_table_witness :
    toyAPI.is_valid_move toyStart.board_ 0 = true ∧
    BlokusDuoGS.play_move toyAPI Tables.initial toyStart 0 =
      Except.error PlayError.out_of_range ∧
    BlokusDuoGS.play_move toyAPI (num_possible_moves toyAPI Tables.initial).2 toyStart 0 =
      Except.ok { board_ := { cells := [1, 0, 0, 0], violet_turn := false } } :=
  ⟨rfl, (play_move_first_reads_unbuilt_table toyAPI toyStart 0).1,
    (play_move_first_reads_unbuilt_table toyAPI toyStart 0).2.2 0 rfl rfl⟩

/-! ## The index/move round trip of the built tables -/

/-- Assigning to a key that is not in the map appends one entry. -/
theorem umap_assign_absent {K : Type} [DecidableEq K] (mp : List (K × Nat)) (k : K) (v : Nat)
    (h : umap_find mp k = none) : umap_assign mp k v = mp ++ [(k, v)] := by
  induction mp with
  | nil => rfl
  | cons hd rest ih =>
    obtain ⟨a, w⟩ := hd
    by_cases hak : a = k
    · simp [umap_find, hak] at h
    · simp only [umap_find, hak, if_false] at h
      simp only [umap_assign, hak, if_false, ih h, List.cons_append]

/-- For a duplicate-free enumeration the loop of `compute_possible_moves`, run
from the empty map, inserts one key per index, in order. -/
theorem build_map_keys {Move : Type} [DecidableEq Move] (all : List Move) (hnd : all.Nodup) :
    ∀ k, k ≤ all.length → (build_map all k []).map Prod.fst = all.take k := by
  intro k
  induction k with
  | zero => intro _; rfl
  | succ k ih =>
    intro hk
    have hk1 : k < all.length := by omega
    rw [build_map_succ, List.getElem?_eq_getElem hk1]
    have habs : umap_find (build_map all k []) all[k] = none := by
      rw [find_build_map_of_absent]
      · rfl
      · intro j hj hc
        have hj1 : j < all.length := by omega
        rw [List.getElem?_eq_getElem hj1] at hc
        have h2 : all[j] = all[k] := by simpa using hc
        have := hnd.getElem_inj_iff.mp h2
        omega
    simp only [umap_assign_absent _ _ _ habs, List.map_append, List.map_cons, List.map_nil,
      ih (by omega)]
    rw [List.take_succ, List.getElem?_eq_getElem hk1]
    rfl

/-- C19. When `compute_possible_moves` runs (in a reachable table state whose
enumeration is still empty) and the board's enumeration has no duplicates, then
afterwards `move_to_index[all_possible_moves[i]] = i` for every
`i < all_possible_moves.size()`, and `move_to_index` has exactly as many keys as
the enumeration has entries, the keys being the moves of the enumeration: indices
and table moves correspond one to one. -/
theorem compute_possible_moves_round_trip {Board Move Key : Type} [DecidableEq Move]
    (B : BoardAPI Board Move Key) (t : Tables Move) (ht : Reachable B t)
    (hempty : t.all_possible_moves = []) (hnd : B.all_possible_moves.Nodup) :
    (compute_possible_moves B t).all_possible_moves = B.all_possible_moves ∧
    (∀ (i : Nat) (m : Move), (compute_possible_moves B t).all_possible_moves[i]? = some m →
      umap_find (compute_possible_moves B t).move_to_index m = some i ∧
      (umap_index (compute_possible_moves B t).move_to_index m).1 = i) ∧
    (compute_possible_moves B t).move_to_index.length =
      (compute_possible_moves B t).all_possible_moves.length ∧
    (compute_possible_moves B t).move_to_index.map Prod.fst =
      (compute_possible_moves B t).all_possible_moves ∧
    (∀ (i j : Nat) (m : Move), (compute_possible_moves B t).all_possible_moves[i]? = some m →
      (compute_possible_moves B t).all_possible_moves[j]? = some m → i = j) := by
  have hinv := reachable_inv B t ht
  have hmap : t.move_to_index = [] := by
    rcases hinv with ⟨-, h2⟩ | ⟨h1, h2, -⟩
    · exact h2
    · rw [hempty] at h1; exact absurd h1.symm h2
  have ht0 : t = Tables.initial := by
    cases t; simp only [Tables.initial] at *; simp [hempty, hmap]
  subst ht0
  rw [compute_possible_moves_initial]
  have hkeys := build_map_keys B.all_possible_moves hnd B.all_possible_moves.length
    (Nat.le_refl _)
  rw [List.take_length] at hkeys
  have hfind : ∀ i m, B.all_possible_moves[i]? = some m →
      umap_find (build_map B.all_possible_moves B.all_possible_moves.length []) m = some i := by
    intro i m hm
    have hi := (List.getElem?_eq_some_iff.mp hm).1
    apply find_build_map_last _ _ _ i hm _ hi
    intro j hij hj hc
    rw [List.getElem?_eq_getElem hj] at hc
    have h2 : B.all_possible_moves[j] = B.all_possible_moves[i] := by
      rw [(List.getElem?_eq_some_iff.mp hm).2]; exact Option.some.inj hc
    have := hnd.getElem_inj_iff.mp h2
    omega
  refine ⟨rfl, ?_, ?_, hkeys, ?_⟩
  · intro i m hm
    refine ⟨hfind i m hm, ?_⟩
    rw [umap_index_fst, hfind i m hm]; rfl
  · have := congrArg List.length hkeys
    simpa using this
  · intro i j m hi hj
    have h1 := hfind i m hi
    rw [hfind j m hj] at h1
    exact (Option.some.inj h1).symm

/-- C19, on the toy board: the map built on first use is
`[(0, 0), (1, 1), (2, 2), (3, 3)]`. -/
theorem compute_possible_moves_round_trip_witness :
    (Reachable toyAPI (Tables.initial : Tables Nat) ∧
      (Tables.initial : Tables Nat).all_possible_moves = [] ∧
      toyAPI.all_possible_moves.Nodup) ∧
    (compute_possible_moves toyAPI Tables.initial).move_to_index.length = 4 ∧
    umap_find (compute_possible_moves toyAPI Tables.initial).move_to_index 2 = some 2 :=
  ⟨⟨Reachable.initial, rfl, by decide⟩,
    (compute_possible_moves_round_trip toyAPI Tables.initial Reachable.initial rfl
      (by decide)).2.2.1,
    ((compute_possible_moves_round_trip toyAPI Tables.initial Reachable.initial rfl
      (by decide)).2.1 2 2 rfl).1⟩

end Claims

end alphazero.blokusduo_gs

/-! ## The search tree: score, selection of the best child, expansion -/

namespace alphazero

/-- The scan keeps a position of the largest value seen so far, the first one. -/
theorem first_max_scan_spec {α : Type} [LinearOrder α] (rest : List α) :
    ∀ (pre : List α) (best : Nat) (top : α), pre[best]? = some top →
      (∀ (j : Nat) (x : α), pre[j]? = some x → x ≤ top) →
      (∀ (j : Nat) (x : α), j < best → pre[j]? = some x → x < top) →
      ∃ t, (pre ++ rest)[first_max_scan rest pre.length best top]? = some t ∧
        (∀ (j : Nat) (x : α), (pre ++ rest)[j]? = some x → x ≤ t) ∧
        (∀ (j : Nat) (x : α), j < first_max_scan rest pre.length best top →
          (pre ++ rest)[j]? = some x → x < t) := by
  induction rest with
  | nil =>
    intro pre best top h1 h2 h3
    simp only [first_max_scan, List.append_nil]
    exact ⟨top, h1, h2, h3⟩
  | cons y rest ih =>
    intro pre best top h1 h2 h3
    have hbest : best < pre.length := (List.getElem?_eq_some_iff.mp h1).1
    have hlen : (pre ++ [y]).length = pre.length + 1 := by simp
    have happ : pre ++ y :: rest = (pre ++ [y]) ++ rest := by simp
    have hget : ∀ (j : Nat) (x : α), (pre ++ [y])[j]? = some x → (j < pre.length ∧ pre[j]? = some x) ∨
        (j = pre.length ∧ x = y) := by
      intro j x hx
      by_cases hj : j < pre.length
      · left
        rw [List.getElem?_append_left hj] at hx
        exact ⟨hj, hx⟩
      · right
        have hj1 : j < (pre ++ [y]).length := (List.getElem?_eq_some_iff.mp hx).1
        have hj2 : j = pre.length := by omega
        subst hj2
        simp at hx
        exact ⟨rfl, hx.symm⟩
    rw [happ]
    by_cases hy : y > top
    · simp only [first_max_scan, hy, if_true]
      have := ih (pre ++ [y]) pre.length y (by simp)
        (fun j x hx => by
          rcases hget j x hx with ⟨-, h⟩ | ⟨-, h⟩
          · exact le_of_lt (lt_of_le_of_lt (h2 j x h) hy)
          · rw [h])
        (fun j x hj hx => by
          rcases hget j x hx with ⟨-, h⟩ | ⟨h, -⟩
          · exact lt_of_le_of_lt (h2 j x h) hy
          · omega)
      rw [hlen] at this
      exact this
    · simp only [first_max_scan, hy, if_false]
      have := ih (pre ++ [y]) best top
        (by rw [List.getElem?_append_left hbest]; exact h1)
        (fun j x hx => by
          rcases hget j x hx with ⟨-, h⟩ | ⟨-, h⟩
          · exact h2 j x h
          · rw [h]; exact not_lt.mp hy)
        (fun j x hj hx => by
          rcases hget j x hx with ⟨-, h⟩ | ⟨h, -⟩
          · exact h3 j x hj h
          · omega)
      rw [hlen] at this
      exact this

/-- The position returned for a non-empty list holds a largest value, and every
earlier position holds a strictly smaller one. -/
theorem first_max_spec {α : Type} [LinearOrder α] (l : List α) (hl : l ≠ []) :
    ∃ t, l[first_max l]? = some t ∧ (∀ (j : Nat) (x : α), l[j]? = some x → x ≤ t) ∧
      (∀ (j : Nat) (x : α), j < first_max l → l[j]? = some x → x < t) := by
  cases l with
  | nil => exact absurd rfl hl
  | cons a rest =>
    have := first_max_scan_spec rest [a] 0 a rfl
      (fun j x hx => by
        have hj : j < 1 := (List.getElem?_eq_some_iff.mp hx).1
        have hj0 : j = 0 := by omega
        subst hj0
        simp at hx
        rw [hx])
      (fun j x hj _ => by omega)
    simpa [first_max] using this

/-- The children of the test's root, written out. -/
theorem testRoot_children :
    testRoot.children =
      [Node.mk 0 (1 / 10) 0 0 [], Node.mk 1 (6 / 5) 0 0 [], Node.mk 2 (3 / 10) 0 0 [],
        Node.mk 3 (2 / 5) 0 0 [], Node.mk 4 (1 / 2) 0 0 [], Node.mk 5 (3 / 5) 0 0 [],
        Node.mk 6 (7 / 10) 0 0 []] := by
  have hr : List.range 7 = [0, 1, 2, 3, 4, 5, 6] := by decide
  simp [testRoot, Node.add_children, Node.update_policy, Node.set_n, Node.children,
    new_children, hr, Node.set_policy, Node.move, List.filter]

/-- C11. The score of a node (`uct`): for every node with visit count `n`,
accumulated value `w` and prior `p`, every parent count `N` and constant `c`,
`score = q + c * p * N / (1 + n)` with `q = w / n` if `n > 0` and `q = 0`
otherwise; it is linear in `N` for an unvisited node, whose score is `c * p * N`;
with `c = 2` and `p = 0.6` that is 1.2 for `N = 1` and 2.4 for `N = 2`, as the
test expects of the child with move 5. -/
theorem uct_formula (nd : Node) (N : Nat) (c : ℚ) :
    nd.uct N c = nd.q + c * nd.policy * N / (1 + nd.n) ∧
    (0 < nd.n → nd.q = nd.w / nd.n) ∧
    (nd.n = 0 → nd.q = 0) ∧
    (nd.n = 0 → nd.uct N c = c * nd.policy * N) ∧
    (nd.n = 0 → nd.uct (2 * N) c = 2 * nd.uct N c) ∧
    (nd.n = 0 → nd.policy = 3 / 5 → nd.uct 1 2 = 6 / 5 ∧ nd.uct 2 2 = 12 / 5) ∧
    (∀ x ∈ testRoot.children, x.move = 5 → x.uct 1 2 = 6 / 5 ∧ x.uct 2 2 = 12 / 5) := by
  have hq0 : nd.n = 0 → nd.q = 0 := by
    intro h; simp [Node.q, h]
  have hu0 : ∀ M : Nat, nd.n = 0 → nd.uct M c = c * nd.policy * M := by
    intro M h; simp [Node.uct, hq0 h, h]
  refine ⟨rfl, ?_, hq0, hu0 N, ?_, ?_, ?_⟩
  · intro h; simp [Node.q, h]
  · intro h
    rw [hu0 (2 * N) h, hu0 N h]
    push_cast; ring
  · intro h hp
    constructor
    · simp [Node.uct, hq0 h, h, hp]; norm_num
    · simp [Node.uct, hq0 h, h, hp]; norm_num
  · intro x hx hmove
    rw [testRoot_children] at hx
    simp only [List.mem_cons, List.mem_singleton, List.not_mem_nil, or_false] at hx
    rcases hx with rfl | rfl | rfl | rfl | rfl | rfl | rfl <;>
      simp [Node.move] at hmove
    constructor <;> simp [Node.uct, Node.q, Node.n, Node.policy] <;> norm_num

/-- In a list whose moves increase, a later position has a larger move. -/
theorem move_le_of_sorted (l : List Node)
    (hs : (l.map Node.move).Pairwise (fun a b => a < b)) (i j : Nat) (x y : Node)
    (hij : i ≤ j) (hx : l[i]? = some x) (hy : l[j]? = some y) : x.move ≤ y.move := by
  obtain ⟨hi, rfl⟩ := List.getElem?_eq_some_iff.mp hx
  obtain ⟨hj, rfl⟩ := List.getElem?_eq_some_iff.mp hy
  rcases Nat.lt_or_eq_of_le hij with h | h
  · have := List.pairwise_iff_getElem.mp hs i j (by simpa using hi) (by simpa using hj) h
    simp only [List.getElem_map] at this
    exact le_of_lt this
  · subst h; exact le_refl _

/-- The first position of a largest value of `f` among the nodes of a list. -/
theorem first_max_map_spec {α : Type} [LinearOrder α] (l : List Node) (f : Node → α)
    (hl : l ≠ []) :
    ∃ b, l[first_max (l.map f)]? = some b ∧ (∀ x ∈ l, f x ≤ f b) ∧
      (∀ (j : Nat) (x : Node), j < first_max (l.map f) → l[j]? = some x → f x < f b) := by
  obtain ⟨t, h1, h2, h3⟩ := first_max_spec (l.map f) (by simpa using hl)
  rw [List.getElem?_map] at h1
  cases hb : l[first_max (l.map f)]? with
  | none => rw [hb] at h1; simp at h1
  | some b =>
    rw [hb] at h1
    have ht : f b = t := by simpa using h1
    refine ⟨b, rfl, ?_, ?_⟩
    · intro x hx
      obtain ⟨j, hj⟩ := List.mem_iff_getElem?.mp hx
      rw [ht]
      exact h2 j (f x) (by rw [List.getElem?_map, hj]; rfl)
    · intro j x hj hx
      rw [ht]
      exact h3 j (f x) hj (by rw [List.getElem?_map, hx]; rfl)

/-- C12. For every node with at least one child, `best_child` returns a child
whose score (with the node's own visit count as parent count) is at least the
score of every child; every child before it in the list has a strictly smaller
score, so among the children with the maximal score it is the first, which is
the one with the lowest action index when the children are in increasing
action order (as `add_children` creates them); with all children unvisited,
parent count 1 and a positive constant it is a child with the highest prior, the
child with move 1 for the test's priors `[0.1, 1.2, 0.3, 0.4, 0.5, 0.6, 0.7]`. -/
theorem best_child_maximal (nd : Node) (c : ℚ) (hch : nd.children ≠ []) :
    ∃ b i, nd.best_child c = some b ∧ nd.children[i]? = some b ∧
      (∀ x ∈ nd.children, x.uct nd.n c ≤ b.uct nd.n c) ∧
      (∀ (j : Nat) (x : Node), j < i → nd.children[j]? = some x →
        x.uct nd.n c < b.uct nd.n c) ∧
      ((nd.children.map Node.move).Pairwise (fun a b => a < b) →
        ∀ x ∈ nd.children, x.uct nd.n c = b.uct nd.n c → b.move ≤ x.move) ∧
      ((∀ x ∈ nd.children, x.n = 0) → nd.n = 1 → 0 < c →
        ∀ x ∈ nd.children, x.policy ≤ b.policy) ∧
      (testRoot.best_child 2).map Node.move = some 1 := by
  obtain ⟨b, h1, h2, h3⟩ := first_max_map_spec nd.children (fun x => x.uct nd.n c) hch
  refine ⟨b, _, h1, h1, h2, h3, ?_, ?_, ?_⟩
  · intro hs x hx heq
    obtain ⟨j, hj⟩ := List.mem_iff_getElem?.mp hx
    by_cases hlt : j < first_max (nd.children.map (fun x => x.uct nd.n c))
    · have := h3 j x hlt hj
      rw [heq] at this
      exact absurd this (lt_irrefl _)
    · exact move_le_of_sorted nd.children hs _ j b x (not_lt.mp hlt) h1 hj
  · intro hz hn hc x hx
    have hb : b ∈ nd.children := List.mem_iff_getElem?.mpr ⟨_, h1⟩
    have hle := h2 x hx
    simp only [Node.uct, Node.q, hz x hx, hz b hb, hn, lt_irrefl, if_false, Nat.cast_one,
      Nat.cast_zero, add_zero, div_one, mul_one, zero_add] at hle
    exact le_of_mul_le_mul_left hle hc
  · have hn : testRoot.n = 1 := rfl
    unfold Node.best_child
    rw [testRoot_children, hn]
    simp [first_max, first_max_scan, Node.uct, Node.q, Node.n, Node.policy, Node.move]
    norm_num

/-- C12, on the test's root. -/
theorem best_child_maximal_witness :
    testRoot.children ≠ [] ∧
    ∃ b, testRoot.best_child 2 = some b ∧ b.move = 1 ∧
      ∀ x ∈ testRoot.children, x.uct testRoot.n 2 ≤ b.uct testRoot.n 2 := by
  have hne : testRoot.children ≠ [] := by rw [testRoot_children]; simp
  obtain ⟨b, i, h1, -, h2, -, -, -, h3⟩ := best_child_maximal testRoot 2 hne
  refine ⟨hne, b, h1, ?_, h2⟩
  rw [h1] at h3
  simpa using h3

/-- The set entries of a mask are as many as the positions that hold one. -/
theorem filter_range_length (mask : List Nat) :
    ((List.range mask.length).filter (fun i => mask.getD i 0 != 0)).length =
      (mask.filter (fun b => b != 0)).length := by
  induction mask using List.reverseRecOn with
  | nil => rfl
  | append_singleton l a ih =>
    have h1 : (List.range l.length).filter (fun i => (l ++ [a]).getD i 0 != 0) =
        (List.range l.length).filter (fun i => l.getD i 0 != 0) := by
      apply List.filter_congr
      intro i hi
      rw [List.getD_append l [a] 0 i (List.mem_range.mp hi)]
    have h2 : (l ++ [a]).getD l.length 0 = a := by
      rw [List.getD_append_right l [a] 0 l.length (Nat.le_refl _)]
      simp
    rw [List.length_append, List.length_singleton, List.range_succ, List.filter_append,
      List.filter_append, List.length_append, List.length_append, h1, ih]
    congr 1
    simp only [List.filter, h2]
    cases a != 0 <;> rfl

theorem new_children_moves (mask : List Nat) :
    (new_children mask).map Node.move =
      (List.range mask.length).filter (fun i => mask.getD i 0 != 0) := by
  simp only [new_children, List.map_map]
  conv_rhs => rw [← List.map_id ((List.range mask.length).filter (fun i => mask.getD i 0 != 0))]
  rfl

theorem new_children_sorted (mask : List Nat) :
    ((new_children mask).map Node.move).Pairwise (fun a b => a < b) := by
  rw [new_children_moves]
  exact (List.pairwise_lt_range _).filter _

theorem new_children_fresh (mask : List Nat) :
    ∀ x ∈ new_children mask, x.n = 0 ∧ x.policy = 0 ∧ x.w = 0 ∧ x.children = [] := by
  intro x hx
  simp only [new_children, List.mem_map] at hx
  obtain ⟨i, -, rfl⟩ := hx
  exact ⟨rfl, rfl, rfl, rfl⟩

/-- C13. Expanding an unexpanded node creates exactly one child per set entry of
the mask (as many children as set entries), in increasing action-index order,
hence with pairwise distinct moves, each with `n = 0`, `policy = 0`, `w = 0` and
no children, and leaves the node's own fields alone; `update_policy(pi)` then
gives every child the prior `pi[child.move]` and changes nothing else. For the
mask of the test (seven open columns) there are 7 children, and the child with
move 5 gets the prior 0.6. -/
theorem add_children_then_update_policy (nd : Node) (mask : List Nat) (pi : List ℚ)
    (hun : nd.children = []) :
    (nd.add_children mask).children.map Node.move =
      (List.range mask.length).filter (fun i => mask.getD i 0 != 0) ∧
    (nd.add_children mask).children.length = (mask.filter (fun b => b != 0)).length ∧
    ((nd.add_children mask).children.map Node.move).Pairwise (fun a b => a < b) ∧
    ((nd.add_children mask).children.map Node.move).Nodup ∧
    (∀ x ∈ (nd.add_children mask).children,
      x.n = 0 ∧ x.policy = 0 ∧ x.w = 0 ∧ x.children = []) ∧
    ((nd.add_children mask).move = nd.move ∧ (nd.add_children mask).policy = nd.policy ∧
      (nd.add_children mask).n = nd.n ∧ (nd.add_children mask).w = nd.w) ∧
    (∀ e : Node,
      ((e.update_policy pi).move = e.move ∧ (e.update_policy pi).policy = e.policy ∧
        (e.update_policy pi).n = e.n ∧ (e.update_policy pi).w = e.w) ∧
      (e.update_policy pi).children.length = e.children.length ∧
      ∀ (i : Nat) (x : Node), e.children[i]? = some x →
        ∃ y, (e.update_policy pi).children[i]? = some y ∧
          (∀ p, pi[x.move]? = some p → y.policy = p) ∧
          y.move = x.move ∧ y.n = x.n ∧ y.w = x.w ∧ y.children = x.children) ∧
    (testRoot.children.length = 7 ∧ ∀ x ∈ testRoot.children, x.move = 5 → x.policy = 3 / 5) := by
  have hch : (nd.add_children mask).children = new_children mask := by
    cases nd with
    | mk m p n w children =>
      simp only [Node.children] at hun
      simp [Node.add_children, Node.children, hun]
  have hsorted := new_children_sorted mask
  refine ⟨by rw [hch]; exact new_children_moves mask, ?_, by rw [hch]; exact hsorted, ?_,
    by rw [hch]; exact new_children_fresh mask, ?_, ?_, ?_⟩
  · rw [hch, ← filter_range_length, ← new_children_moves, List.length_map]
  · rw [hch]
    exact hsorted.imp (fun h => Nat.ne_of_lt h)
  · cases nd with
    | mk m p n w children => exact ⟨rfl, rfl, rfl, rfl⟩
  · intro e
    cases e with
    | mk m p n w children =>
      refine ⟨⟨rfl, rfl, rfl, rfl⟩, by simp [Node.update_policy, Node.children], ?_⟩
      intro i x hx
      simp only [Node.children] at hx
      refine ⟨x.set_policy (pi.getD x.move 0), by
        simp [Node.update_policy, Node.children, List.getElem?_map, hx], ?_, ?_⟩
      · intro q hq
        cases x with
        | mk xm xp xn xw xc =>
          simp only [Node.move] at hq
          simp [Node.set_policy, Node.policy, Node.move, List.getD_eq_getElem?_getD, hq]
      · cases x with
        | mk xm xp xn xw xc => exact ⟨rfl, rfl, rfl, rfl⟩
  · rw [testRoot_children]
    refine ⟨rfl, ?_⟩
    intro x hx hmove
    simp only [List.mem_cons, List.mem_singleton, List.not_mem_nil, or_false] at hx
    rcases hx with rfl | rfl | rfl | rfl | rfl | rfl | rfl <;>
      simp [Node.move] at hmove
    rfl

/-- C13, on the unexpanded root of the test and the mask of seven open columns. -/
theorem add_children_then_update_policy_witness :
    (Node.mk 0 0 0 0 []).children = [] ∧
    ((Node.mk 0 0 0 0 []).add_children [1, 1, 1, 1, 1, 1, 1]).children.length = 7 ∧
    ((Node.mk 0 0 0 0 []).add_children [1, 1, 1, 1, 1, 1, 1]).children.map Node.move =
      [0, 1, 2, 3, 4, 5, 6] := by
  obtain ⟨h1, h2, -⟩ := add_children_then_update_policy (Node.mk 0 0 0 0 [])
    [1, 1, 1, 1, 1, 1, 1] [] rfl
  refine ⟨rfl, ?_, ?_⟩
  · rw [h2]; decide
  · rw [h1]; decide

/-! ## The controller: visit conservation and the move picked at temperature 0 -/

theorem backprop_move_n {State : Type} (G : GameContract State) (leaf : State) (pi : List ℚ)
    (nd : Node) (path : List Nat) (v : ℚ) :
    (nd.backprop G leaf pi path v).move = nd.move ∧
    (nd.backprop G leaf pi path v).n = nd.n + 1 := by
  cases nd with
  | mk m p n w children =>
    cases path with
    | nil =>
      simp only [Node.backprop]
      split_ifs <;> exact ⟨rfl, rfl⟩
    | cons i rest => exact ⟨rfl, rfl⟩

/-- Unvisited nodes without children, after their priors are set: their visit
counts sum to 0, their moves are unchanged and each satisfies the invariant. -/
theorem fresh_children_facts {State : Type} (G : GameContract State) (st : State)
    (f : Node → ℚ) (l : List Node) (hl : ∀ x ∈ l, x.n = 0 ∧ x.children = []) :
    ((l.map (fun c => c.set_policy (f c))).map Node.n).sum = 0 ∧
    (l.map (fun c => c.set_policy (f c))).map Node.move = l.map Node.move ∧
    inv_list G (l.map (fun c => c.set_policy (f c))) st := by
  induction l with
  | nil => exact ⟨rfl, rfl, trivial⟩
  | cons x tl ih =>
    obtain ⟨h1, h2, h3⟩ := ih (fun y hy => hl y (List.mem_cons_of_mem x hy))
    obtain ⟨hn, hc⟩ := hl x (List.mem_cons_self x tl)
    cases x with
    | mk m p n w children =>
      simp only [Node.n, Node.children] at hn hc
      subst hn; subst hc
      refine ⟨?_, ?_, ?_⟩
      · rw [List.map_cons, List.map_cons, List.sum_cons, h1]
        rfl
      · rw [List.map_cons, List.map_cons, List.map_cons, h2]
        rfl
      · rw [List.map_cons]
        refine ⟨?_, h3⟩
        show Node.inv G (Node.mk m (f (Node.mk m p 0 w [])) 0 w []) _
        rw [Node.inv]
        exact ⟨fun h => absurd rfl h, fun _ _ => Or.inl rfl, List.Pairwise.nil, trivial⟩

mutual
/-- One simulation (selection from a node, then expansion and backpropagation
along the selected path) preserves the invariant of the node. -/
theorem step_inv {State : Type} (G : GameContract State) (cpuct : ℚ) (pi : List ℚ) :
    ∀ (nd : Node) (st : State) (v : ℚ), Node.inv G nd st →
      Node.inv G
        (nd.backprop G (nd.select G cpuct st).2 pi (nd.select G cpuct st).1 v) st
  | .mk m p n w children, st, v, h => by
    rw [Node.inv] at h
    obtain ⟨h1, h2, h3, h4⟩ := h
    cases hterm : (G.scores st).isSome with
    | true =>
      have hsel : (Node.mk m p n w children).select G cpuct st = ([], st) := by
        rw [Node.select]; simp [hterm]
      have hb : (Node.mk m p n w children).backprop G st pi [] v =
          Node.mk m p (n + 1) (w + v) children := by
        rw [Node.backprop]; simp [hterm]
      have hnone : G.scores st ≠ none := by
        intro hc; rw [hc] at hterm; cases hterm
      have hch : children = [] := by
        by_contra hc; exact hnone (h1 hc).1
      subst hch
      rw [hsel, hb, Node.inv]
      exact ⟨fun hc => absurd rfl hc, fun _ hs => absurd hs hnone, h3, h4⟩
    | false =>
      have hnone : G.scores st = none := by
        cases hs : G.scores st with
        | none => rfl
        | some x => rw [hs] at hterm; cases hterm
      by_cases hch : children = []
      · subst hch
        have hsel : (Node.mk m p n w []).select G cpuct st = ([], st) := by
          rw [Node.select]; simp [hterm]
        have hb : (Node.mk m p n w []).backprop G st pi [] v =
            Node.mk m p (n + 1) (w + v)
              ((new_children (G.valid_moves st)).map
                (fun c => c.set_policy (pi.getD c.move 0))) := by
          rw [Node.backprop]; simp [hterm, Node.add_children, Node.update_policy]
        obtain ⟨f1, f2, f3⟩ := fresh_children_facts G st (fun c => pi.getD c.move 0)
          (new_children (G.valid_moves st))
          (fun x hx => ⟨(new_children_fresh _ x hx).1, (new_children_fresh _ x hx).2.2.2⟩)
        rw [hsel, hb, Node.inv]
        refine ⟨fun hne => ⟨hnone, ?_⟩, fun he _ => Or.inr ?_, ?_, f3⟩
        · rcases h2 rfl hnone with h0 | h0
          · rw [f1, h0]
          · rw [h0] at hne; exact absurd rfl hne
        · exact List.map_eq_nil_iff.mp he
        · rw [f2]; exact new_children_sorted _
      · obtain ⟨b, hb1, -, -⟩ := first_max_map_spec children (fun x => x.uct n cpuct) hch
        have hi : first_max (children.map (fun x => x.uct n cpuct)) < children.length :=
          (List.getElem?_eq_some_iff.mp hb1).1
        have hemp : children.isEmpty = false := by
          cases children with
          | nil => exact absurd rfl hch
          | cons a l => rfl
        have hsel : (Node.mk m p n w children).select G cpuct st =
            (first_max (children.map (fun x => x.uct n cpuct)) ::
              (select_at G cpuct children
                (first_max (children.map (fun x => x.uct n cpuct))) st).1,
              (select_at G cpuct children
                (first_max (children.map (fun x => x.uct n cpuct))) st).2) := by
          rw [Node.select]; simp [hterm, hemp]
        obtain ⟨g1, g2, g3⟩ := step_inv_list G cpuct pi children
          (first_max (children.map (fun x => x.uct n cpuct))) st (-v) h4 hi
        rw [hsel]
        dsimp only
        rw [Node.backprop, Node.inv]
        refine ⟨fun _ => ⟨hnone, ?_⟩, fun he => ?_, ?_, g1⟩
        · rw [g2, (h1 hch).2]; omega
        · exfalso
          rw [he] at g3
          exact hch (List.map_eq_nil_iff.mp g3.symm)
        · rw [g3]; exact h3
/-- One simulation continued in the child at position `i` preserves the
invariant of the children, adds one visit to them in total and keeps their
moves. -/
theorem step_inv_list {State : Type} (G : GameContract State) (cpuct : ℚ) (pi : List ℚ) :
    ∀ (ch : List Node) (i : Nat) (st : State) (v : ℚ), inv_list G ch st → i < ch.length →
      inv_list G
        (backprop_at G (select_at G cpuct ch i st).2 pi ch i (select_at G cpuct ch i st).1 v)
        st ∧
      ((backprop_at G (select_at G cpuct ch i st).2 pi ch i
        (select_at G cpuct ch i st).1 v).map Node.n).sum = (ch.map Node.n).sum + 1 ∧
      (backprop_at G (select_at G cpuct ch i st).2 pi ch i
        (select_at G cpuct ch i st).1 v).map Node.move = ch.map Node.move
  | [], i, _, _, _, hi => absurd hi (Nat.not_lt_zero i)
  | c :: tl, 0, st, v, h, _ => by
    rw [inv_list] at h
    rw [select_at, backprop_at]
    have hc := step_inv G cpuct pi c (G.play_move st c.move) v h.1
    obtain ⟨hm, hn⟩ := backprop_move_n G
      (c.select G cpuct (G.play_move st c.move)).2 pi c
      (c.select G cpuct (G.play_move st c.move)).1 v
    refine ⟨?_, ?_, ?_⟩
    · rw [inv_list, hm]; exact ⟨hc, h.2⟩
    · rw [List.map_cons, List.map_cons, List.sum_cons, List.sum_cons, hn]; omega
    · rw [List.map_cons, List.map_cons, hm]
  | c :: tl, i + 1, st, v, h, hi => by
    rw [inv_list] at h
    rw [select_at, backprop_at]
    obtain ⟨g1, g2, g3⟩ := step_inv_list G cpuct pi tl i st v h.2
      (Nat.lt_of_succ_lt_succ hi)
    refine ⟨?_, ?_, ?_⟩
    · rw [inv_list]; exact ⟨h.1, g1⟩
    · rw [List.map_cons, List.map_cons, List.sum_cons, List.sum_cons, g2]; omega
    · rw [List.map_cons, List.map_cons, g3]
end

mutual
/-- Under the invariant every node of the tree that has children satisfies
`n = 1 + sum(child.n)`. -/
theorem inv_nodes {State : Type} (G : GameContract State) :
    ∀ (nd : Node) (st : State), Node.inv G nd st →
      ∀ x ∈ nd.nodes, x.children ≠ [] → x.n = 1 + (x.children.map Node.n).sum
  | .mk m p n w children, st, h => by
    rw [Node.inv] at h
    intro x hx hne
    rw [Node.nodes, List.mem_cons] at hx
    rcases hx with rfl | hx
    · exact (h.1 hne).2
    · exact inv_nodes_list G children st h.2.2.2 x hx hne
/-- The same for every node of a list of trees. -/
theorem inv_nodes_list {State : Type} (G : GameContract State) :
    ∀ (ch : List Node) (st : State), inv_list G ch st →
      ∀ x ∈ nodes_list ch, x.children ≠ [] → x.n = 1 + (x.children.map Node.n).sum
  | [], _, _ => by
    intro x hx
    rw [nodes_list] at hx
    exact absurd hx (List.not_mem_nil x)
  | c :: tl, st, h => by
    rw [inv_list] at h
    intro x hx hne
    rw [nodes_list, List.mem_append] at hx
    rcases hx with hx | hx
    · exact inv_nodes G c (G.play_move st c.move) h.1 x hx hne
    · exact inv_nodes_list G tl st h.2 x hx hne
end

/-- Every controller reachable by completed simulations on `gs` has no pending
simulation, keeps its exploration constant, has as many root visits as completed
simulations and a tree that satisfies the invariant. -/
theorem mcts_reachable_inv {State : Type} (G : GameContract State) (gs : State) (cpuct : ℚ)
    (k : Nat) (m : MCTS State) (h : MCTS.Reachable G gs cpuct k m) :
    m.pending = none ∧ m.cpuct = cpuct ∧ m.root.n = m.depth ∧ Node.inv G m.root gs := by
  induction h with
  | fresh =>
    refine ⟨rfl, rfl, rfl, ?_⟩
    show Node.inv G (Node.mk 0 0 0 0 []) gs
    rw [Node.inv]
    exact ⟨fun h => absurd rfl h, fun _ _ => Or.inl rfl, List.Pairwise.nil, trivial⟩
  | @simulate m m1 m2 leaf value pi _ hf hp ih =>
    obtain ⟨i1, i2, i3, i4⟩ := ih
    simp only [MCTS.find_leaf, i1, Option.some.injEq, Prod.mk.injEq] at hf
    obtain ⟨hm1, -⟩ := hf
    subst hm1
    simp only [MCTS.process_result, Option.some.injEq] at hp
    subst hp
    refine ⟨rfl, i2, ?_, ?_⟩
    · simp only [(backprop_move_n G _ pi m.root _ _).2, i3]
    · exact step_inv G m.cpuct pi m.root gs _ i4

/-- A completed simulation leads from a reachable controller to a reachable one. -/
theorem mcts_reachable_simulate {State : Type} (G : GameContract State)
    (eval : State → ℚ × List ℚ) (gs : State) (cpuct : ℚ) (k : Nat) (m : MCTS State)
    (h : MCTS.Reachable G gs cpuct k m) :
    MCTS.Reachable G gs cpuct k (MCTS.simulate G eval gs m) := by
  unfold MCTS.simulate
  cases hf : m.find_leaf G gs with
  | none => exact h
  | some r =>
    obtain ⟨m1, leaf⟩ := r
    cases hp : m1.process_result G (eval leaf).1 (eval leaf).2 with
    | none => simp only [hp]; exact h
    | some m2 => simp only [hp]; exact MCTS.Reachable.simulate h hf hp

/-- C14. Visit conservation: in every search tree reachable from a fresh
controller by any number of completed `find_leaf` / `process_result` simulations
on a position `gs`, every node that has children (the root included) satisfies
`n = 1 + sum of its children's n`. -/
theorem visit_conservation {State : Type} (G : GameContract State) (gs : State) (cpuct : ℚ)
    (k : Nat) (m : MCTS State) (h : MCTS.Reachable G gs cpuct k m) :
    ∀ x ∈ m.root.nodes, x.children ≠ [] → x.n = 1 + (x.children.map Node.n).sum :=
  inv_nodes G m.root gs (mcts_reachable_inv G gs cpuct k m h).2.2.2

/-- C14, on the toy game after three simulations with the zero-value,
uniform-policy evaluator. -/
theorem visit_conservation_witness :
    MCTS.Reachable toyGame [] 2 2 toyController ∧
    ∀ x ∈ toyController.root.nodes, x.children ≠ [] →
      x.n = 1 + (x.children.map Node.n).sum :=
  ⟨mcts_reachable_simulate toyGame toyEval [] 2 2 _
      (mcts_reachable_simulate toyGame toyEval [] 2 2 _
        (mcts_reachable_simulate toyGame toyEval [] 2 2 _ MCTS.Reachable.fresh)),
    visit_conservation toyGame [] 2 2 toyController
      (mcts_reachable_simulate toyGame toyEval [] 2 2 _
        (mcts_reachable_simulate toyGame toyEval [] 2 2 _
          (mcts_reachable_simulate toyGame toyEval [] 2 2 _ MCTS.Reachable.fresh)))⟩

/-- C15. `pick_move` at temperature 0 is deterministic: for every controller
reachable by completed simulations whose root has children,
`pick_move(0, num_moves)` returns, whatever the random source, the action of a
child with the highest visit count and, among the children with that count, the
one with the lowest action index; and it fails when the root has no children. -/
theorem pick_move_zero_most_visited {State : Type} (G : GameContract State) (gs : State)
    (cpuct : ℚ) (k : Nat) (m : MCTS State) (sample : ℚ → List (Nat × Nat) → Option Nat)
    (num_moves : Nat) (h : MCTS.Reachable G gs cpuct k m) :
    (m.root.children ≠ [] →
      ∃ a b, m.pick_move sample 0 num_moves = some a ∧ b ∈ m.root.children ∧ b.move = a ∧
        (∀ x ∈ m.root.children, x.n ≤ b.n) ∧
        (∀ x ∈ m.root.children, x.n = b.n → b.move ≤ x.move) ∧
        (∀ sample2 : ℚ → List (Nat × Nat) → Option Nat,
          m.pick_move sample2 0 num_moves = some a)) ∧
    (m.root.children = [] →
      ∀ temperature : ℚ, m.pick_move sample temperature num_moves = none) := by
  have hinv := (mcts_reachable_inv G gs cpuct k m h).2.2.2
  constructor
  · intro hne
    have hsorted : (m.root.children.map Node.move).Pairwise (fun a b => a < b) := by
      cases hr : m.root with
      | mk mv p n w children =>
        rw [hr, Node.inv] at hinv
        exact hinv.2.2.1
    obtain ⟨b, h1, h2, h3⟩ := first_max_map_spec m.root.children Node.n hne
    have hpick : ∀ smp : ℚ → List (Nat × Nat) → Option Nat,
        m.pick_move smp 0 num_moves = some b.move := by
      intro smp
      cases hc : m.root.children with
      | nil => exact absurd hc hne
      | cons x rest =>
        rw [hc] at h1
        simp only [MCTS.pick_move, hc, if_true, h1, Option.map_some']
    refine ⟨b.move, b, hpick sample, List.mem_iff_getElem?.mpr ⟨_, h1⟩, rfl, h2, ?_, hpick⟩
    intro x hx heq
    obtain ⟨j, hj⟩ := List.mem_iff_getElem?.mp hx
    by_cases hlt : j < first_max (m.root.children.map Node.n)
    · have := h3 j x hlt hj
      rw [heq] at this
      exact absurd this (lt_irrefl _)
    · exact move_le_of_sorted m.root.children hsorted _ j b x (not_lt.mp hlt) h1 hj
  · intro he temperature
    simp only [MCTS.pick_move, he]

/-- C15, on the toy game after one simulation: both children of the root are
unvisited, and the move picked is the lower one, 0. -/
theorem pick_move_zero_most_visited_witness :
    (MCTS.Reachable toyGame [] 2 2 toyFirst ∧ toyFirst.root.children ≠ []) ∧
    toyFirst.pick_move (fun _ _ => none) 0 2 = some 0 ∧
    ∃ a b, toyFirst.pick_move (fun _ _ => none) 0 2 = some a ∧ b ∈ toyFirst.root.children ∧
      b.move = a ∧ (∀ x ∈ toyFirst.root.children, x.n ≤ b.n) ∧
      (∀ x ∈ toyFirst.root.children, x.n = b.n → b.move ≤ x.move) := by
  have hreach : MCTS.Reachable toyGame [] 2 2 toyFirst :=
    mcts_reachable_simulate toyGame toyEval [] 2 2 _ MCTS.Reachable.fresh
  have hne : toyFirst.root.children ≠ [] := by
    have hlen : toyFirst.root.children.length = 2 := rfl
    intro h
    rw [h] at hlen
    cases hlen
  obtain ⟨a, b, h1, h2, h3, h4, h5, -⟩ :=
    (pick_move_zero_most_visited toyGame [] 2 2 toyFirst (fun _ _ => none) 2 hreach).1 hne
  exact ⟨⟨hreach, hne⟩, rfl, a, b, h1, h2, h3, h4, h5⟩

end alphazero
